import Mathlib

/-!
Verification development for the `uniserde` serialization engine
(`src/.venv/Lib/site-packages/uniserde/`): a shallow embedding of the
type-directed JSON/BSON (de)serializer, the lazy field wrapper and the
MongoDB schema generator, together with proofs about the engine's
documented properties.

Modelling conventions:
* Python values and wire documents are embedded as the inductive types
  `Value` and `Doc` below.  Machine floats are modelled as exact rationals
  (the engine only passes them through), `datetime` as a wall-clock stamp
  plus an optional timezone offset.
* External codecs used by the engine but not part of the repository
  (`datetime.isoformat`/`dateutil.parser.isoparse`, `base64`, `bson.ObjectId`
  hex text, `pathlib` path text) are modelled by dedicated wire
  constructors carrying the information content of the produced text.
* Python's bounded recursion (`RecursionError`) is modelled by a fuel
  parameter on every recursive operation.
* Dictionaries are association lists in insertion order, mirroring Python
  dict semantics (`pyDictInsert` replaces in place, keeps position).
-/

set_option maxHeartbeats 1000000

namespace Uniserde

/-! ## case_convert.py

These functions work on the character lists underlying strings (Lean's
byte-position-based string primitives do not reduce inside the kernel;
the character-list forms are definitionally transparent and agree with
Python's ASCII case semantics on the identifiers the engine handles). -/

/-- Model of `case_convert._is_lower` (`c == c.lower()`), applied to whole strings. -/
def _is_lower (s : String) : Bool := s.data == s.data.map Char.toLower

/-- Model of `case_convert._is_upper` (`c == c.upper()`). -/
def _is_upper (s : String) : Bool := s.data == s.data.map Char.toUpper

/-- Model of Python `str.split("_")`. -/
def splitOnUnderscore : List Char → List (List Char)
  | [] => [[]]
  | c :: rest =>
    match splitOnUnderscore rest with
    | [] => []
    | g :: gs => if c = '_' then [] :: g :: gs else (c :: g) :: gs

/-- Model of Python `str.capitalize`: first character upper-cased, rest
lower-cased. -/
def capitalizeChars : List Char → List Char
  | [] => []
  | c :: cs => c.toUpper :: cs.map Char.toLower

/-- Model of Python `str.capitalize` on strings. -/
def str_capitalize (s : String) : String :=
  String.mk (capitalizeChars s.data)

/-- Model of `case_convert.all_lower_to_camel_case`.  The source asserts
`_is_lower name`; that precondition is recorded in `envWF` instead. -/
def all_lower_to_camel_case (name : String) : String :=
  if name = "" then ""
  else
    match splitOnUnderscore name.data with
    | [] => ""
    | p :: rest => String.mk (p ++ (rest.map capitalizeChars).flatten)

/-- Model of `case_convert.all_upper_to_camel_case`. -/
def all_upper_to_camel_case (name : String) : String :=
  if name = "" then ""
  else
    match splitOnUnderscore name.data with
    | [] => ""
    | p :: rest => String.mk (p.map Char.toLower ++ (rest.map capitalizeChars).flatten)

/-- Character class `[a-z]` of the `_SPLIT_CAMEL_CASE_PATTERN` regex. -/
def isAzLower (c : Char) : Bool := 'a' ≤ c && c ≤ 'z'

/-- Character class `[A-Z]` of the `_SPLIT_CAMEL_CASE_PATTERN` regex. -/
def isAzUpper (c : Char) : Bool := 'A' ≤ c && c ≤ 'Z'

/-- Split positions of `_SPLIT_CAMEL_CASE_PATTERN`: a match ends before an
upper-case letter preceded by a lower-case one, or between two upper-case
letters when the second is followed by a lower-case one. -/
def camelBoundary (prev c : Char) (rest : List Char) : Bool :=
  (isAzLower prev && isAzUpper c) ||
  (isAzUpper prev && isAzUpper c &&
    match rest with
    | d :: _ => isAzLower d
    | [] => false)

/-- Accumulate the non-greedy regex matches of `_SPLIT_CAMEL_CASE_PATTERN`:
`acc` is the current group, reversed. -/
def camelGroups (acc : List Char) : List Char → List (List Char)
  | [] => [acc.reverse]
  | c :: rest =>
    match acc with
    | [] => camelGroups [c] rest
    | p :: _ =>
      if camelBoundary p c rest then acc.reverse :: camelGroups [c] rest
      else camelGroups (c :: acc) rest

/-- Join character groups with underscores (`"_".join`). -/
def joinUnderscore : List (List Char) → List Char
  | [] => []
  | [g] => g
  | g :: gs => g ++ '_' :: joinUnderscore gs

/-- Model of `case_convert.camel_case_to_all_upper`: split on the camel-case
boundaries, upper-case each group, join with underscores. -/
def camel_case_to_all_upper (name : String) : String :=
  String.mk (joinUnderscore ((camelGroups [] name.data).map fun g => g.map Char.toUpper))

/-- Model of `case_convert.upper_camel_case_to_camel_case`. -/
def upper_camel_case_to_camel_case (name : String) : String :=
  match name.data with
  | [] => ""
  | c :: cs => String.mk (c.toLower :: cs)

/-! ## Data model: paths, wire documents, in-memory values -/

/-- Model of a `pathlib.Path`: an absolute flag plus the path segments.
`Path(str(p))` round-trips this structure exactly, so the textual form is
identified with it. -/
structure PyPath where
  isAbs : Bool
  parts : List String
  deriving DecidableEq, Repr

/-- Process working directory consulted by `Path.absolute()`, modelled as a
fixed constant. -/
def CWD : PyPath := ⟨true, ["cwd"]⟩

/-- Model of `Path.absolute()`: prefix the working directory unless the path
is already absolute (no normalization is performed). -/
def pathAbsolute (p : PyPath) : PyPath :=
  if p.isAbs then p else ⟨true, CWD.parts ++ p.parts⟩

/-- Wire documents: the JSON shape (null/bool/number/string/array/object)
plus the BSON native scalars, plus content-carrying constructors for the
external text codecs the JSON format uses (ISO-8601 date/time text, base64
byte text, ObjectId hex text, path text).  Those codecs live in third-party
libraries, not in this repository; each constructor carries exactly the
information content of the corresponding text. -/
inductive Doc where
  | null
  | bool (b : Bool)
  | int (n : Int)
  | float (q : Rat)
  | str (s : String)
  | arr (xs : List Doc)
  | obj (kvs : List (Doc × Doc))
  | b64str (bs : List Nat)
  | dtstr (stamp : Int) (tz : Option Int)
  | oidstr (oid : List Nat)
  | pathstr (p : PyPath)
  | bytesNative (bs : List Nat)
  | dtNative (stamp : Int) (tz : Option Int)
  | oidNative (oid : List Nat)

mutual

/-- Structural equality test on wire documents (Python `==`). -/
def beqDoc : Doc → Doc → Bool
  | .null, .null => true
  | .bool b, .bool b' => b == b'
  | .int n, .int n' => n == n'
  | .float q, .float q' => q == q'
  | .str s, .str s' => s == s'
  | .arr xs, .arr ys => beqDocList xs ys
  | .obj xs, .obj ys => beqDocKVs xs ys
  | .b64str bs, .b64str bs' => bs == bs'
  | .dtstr a b, .dtstr a' b' => a == a' && b == b'
  | .oidstr a, .oidstr a' => a == a'
  | .pathstr p, .pathstr p' => p == p'
  | .bytesNative a, .bytesNative a' => a == a'
  | .dtNative a b, .dtNative a' b' => a == a' && b == b'
  | .oidNative a, .oidNative a' => a == a'
  | _, _ => false
termination_by structural a => a

/-- Elementwise equality of document lists. -/
def beqDocList : List Doc → List Doc → Bool
  | [], [] => true
  | x :: xs, y :: ys => beqDoc x y && beqDocList xs ys
  | _, _ => false
termination_by structural a => a

/-- Elementwise equality of document key/value lists. -/
def beqDocKVs : List (Doc × Doc) → List (Doc × Doc) → Bool
  | [], [] => true
  | (k, v) :: xs, (k', v') :: ys => beqDoc k k' && beqDoc v v' && beqDocKVs xs ys
  | _, _ => false
termination_by structural a => a

end

theorem beqDocList_iff_of (xs ys : List Doc)
    (h : ∀ x ∈ xs, ∀ y, beqDoc x y = true ↔ x = y) :
    beqDocList xs ys = true ↔ xs = ys := by
  induction xs generalizing ys with
  | nil => cases ys <;> simp [beqDocList]
  | cons x xs ih =>
    cases ys with
    | nil => simp [beqDocList]
    | cons y ys =>
      simp only [beqDocList, Bool.and_eq_true, List.cons.injEq]
      rw [h x (List.mem_cons_self x xs) y,
        ih ys (fun a ha => h a (List.mem_cons_of_mem x ha))]

theorem beqDocKVs_iff_of (xs ys : List (Doc × Doc))
    (h : ∀ p ∈ xs, (∀ y, beqDoc p.1 y = true ↔ p.1 = y) ∧
                   (∀ y, beqDoc p.2 y = true ↔ p.2 = y)) :
    beqDocKVs xs ys = true ↔ xs = ys := by
  induction xs generalizing ys with
  | nil => cases ys <;> simp [beqDocKVs]
  | cons x xs ih =>
    obtain ⟨k, v⟩ := x
    cases ys with
    | nil => simp [beqDocKVs]
    | cons y ys =>
      obtain ⟨k', v'⟩ := y
      simp only [beqDocKVs, Bool.and_eq_true, List.cons.injEq, Prod.mk.injEq]
      rw [(h (k, v) (List.mem_cons_self _ xs)).1 k',
        (h (k, v) (List.mem_cons_self _ xs)).2 v',
        ih ys (fun a ha => h a (List.mem_cons_of_mem _ ha))]

theorem beqDoc_iff_aux : ∀ n, ∀ a : Doc, sizeOf a ≤ n → ∀ b, beqDoc a b = true ↔ a = b := by
  intro n
  induction n with
  | zero =>
    intro a ha
    exfalso
    cases a <;> simp at ha
  | succ n ih =>
    intro a ha b
    cases a <;> cases b <;> simp_all [beqDoc]
    case arr.arr xs ys =>
      rw [beqDocList_iff_of xs ys]
      intro x hx y
      exact ih x (by have := List.sizeOf_lt_of_mem hx; omega) y
    case obj.obj xs ys =>
      rw [beqDocKVs_iff_of xs ys]
      intro p hp
      have h1 := List.sizeOf_lt_of_mem hp
      obtain ⟨u, w⟩ := p
      have h2 : sizeOf u ≤ n ∧ sizeOf w ≤ n := by simp at h1; omega
      exact ⟨ih u h2.1, ih w h2.2⟩

theorem beqDoc_iff (a b : Doc) : beqDoc a b = true ↔ a = b :=
  beqDoc_iff_aux (sizeOf a) a le_rfl b

instance : DecidableEq Doc := fun a b => decidable_of_iff _ (beqDoc_iff a b)

/-! ## Type descriptors

`Ty` embeds the Python type annotations the engine dispatches on:
primitives, the generic containers, `Optional` (a `Union` whose second
alternative is `None`), `Any`, `ObjectId`, string `Literal`s, `pathlib.Path`
and named classes (plain record classes, `enum.Enum`, `enum.Flag`), whose
reflection data lives in an `Env`. -/
inductive Ty where
  | bool
  | int
  | float
  | str
  | bytes
  | datetime
  | timedelta
  | list (t : Ty)
  | tuple (ts : List Ty)
  | set (t : Ty)
  | dict (k v : Ty)
  | optional (t : Ty)
  | any
  | objectId
  | lit (options : List String)
  | path
  | named (cls : String)

mutual

/-- Structural equality test on type descriptors. -/
def beqTy : Ty → Ty → Bool
  | .bool, .bool => true
  | .int, .int => true
  | .float, .float => true
  | .str, .str => true
  | .bytes, .bytes => true
  | .datetime, .datetime => true
  | .timedelta, .timedelta => true
  | .list t, .list t' => beqTy t t'
  | .tuple ts, .tuple ts' => beqTyList ts ts'
  | .set t, .set t' => beqTy t t'
  | .dict k v, .dict k' v' => beqTy k k' && beqTy v v'
  | .optional t, .optional t' => beqTy t t'
  | .any, .any => true
  | .objectId, .objectId => true
  | .lit os, .lit os' => os == os'
  | .path, .path => true
  | .named c, .named c' => c == c'
  | _, _ => false
termination_by structural a => a

/-- Elementwise equality of type descriptor lists. -/
def beqTyList : List Ty → List Ty → Bool
  | [], [] => true
  | x :: xs, y :: ys => beqTy x y && beqTyList xs ys
  | _, _ => false
termination_by structural a => a

end

theorem beqTyList_iff_of (xs ys : List Ty)
    (h : ∀ x ∈ xs, ∀ y, beqTy x y = true ↔ x = y) :
    beqTyList xs ys = true ↔ xs = ys := by
  induction xs generalizing ys with
  | nil => cases ys <;> simp [beqTyList]
  | cons x xs ih =>
    cases ys with
    | nil => simp [beqTyList]
    | cons y ys =>
      simp only [beqTyList, Bool.and_eq_true, List.cons.injEq]
      rw [h x (List.mem_cons_self x xs) y,
        ih ys (fun a ha => h a (List.mem_cons_of_mem x ha))]

theorem beqTy_iff_aux : ∀ n, ∀ a : Ty, sizeOf a ≤ n → ∀ b, beqTy a b = true ↔ a = b := by
  intro n
  induction n with
  | zero =>
    intro a ha
    exfalso
    cases a <;> simp at ha
  | succ n ih =>
    intro a ha b
    cases a <;> cases b <;> simp_all [beqTy]
    case list.list t t' => exact ih t (by omega) t'
    case tuple.tuple ts ts' =>
      rw [beqTyList_iff_of ts ts']
      intro x hx y
      exact ih x (by have := List.sizeOf_lt_of_mem hx; omega) y
    case set.set t t' => exact ih t (by omega) t'
    case dict.dict k v k' v' =>
      rw [ih k (by omega) k', ih v (by omega) v']
    case optional.optional t t' => exact ih t (by omega) t'

theorem beqTy_iff (a b : Ty) : beqTy a b = true ↔ a = b :=
  beqTy_iff_aux (sizeOf a) a le_rfl b

instance : DecidableEq Ty := fun a b => decidable_of_iff _ (beqTy_iff a b)

/-! ## In-memory values -/

/-- In-memory Python values handled by the engine.  `vRecord` is a class
instance carrying its runtime class name and its attribute dictionary,
`vEnum`/`vFlag` carry the member's Python name(s), and `vLazy` is the shell
produced by the lazy wrapper: the runtime class name plus the map of not yet
decoded wire fields (`_uniserde_remaining_fields_`). -/
inductive Value where
  | vNone
  | vBool (b : Bool)
  | vInt (n : Int)
  | vFloat (q : Rat)
  | vStr (s : String)
  | vBytes (bs : List Nat)
  | vDatetime (stamp : Int) (tz : Option Int)
  | vTimedelta (secs : Rat)
  | vList (xs : List Value)
  | vTuple (xs : List Value)
  | vSet (xs : List Value)
  | vDict (kvs : List (Value × Value))
  | vObjectId (oid : List Nat)
  | vPath (p : PyPath)
  | vEnum (cls : String) (variant : String)
  | vFlag (cls : String) (bits : List String)
  | vRecord (cls : String) (attrs : List (String × Value))
  | vLazy (cls : String) (remaining : List (Doc × Doc))

mutual

/-- Structural equality test on values (Python `==` on the supported
fragment; record instances compare field-by-field like dataclasses). -/
def beqValue : Value → Value → Bool
  | .vNone, .vNone => true
  | .vBool b, .vBool b' => b == b'
  | .vInt n, .vInt n' => n == n'
  | .vFloat q, .vFloat q' => q == q'
  | .vStr s, .vStr s' => s == s'
  | .vBytes a, .vBytes a' => a == a'
  | .vDatetime a b, .vDatetime a' b' => a == a' && b == b'
  | .vTimedelta q, .vTimedelta q' => q == q'
  | .vList xs, .vList ys => beqValueList xs ys
  | .vTuple xs, .vTuple ys => beqValueList xs ys
  | .vSet xs, .vSet ys => beqValueList xs ys
  | .vDict xs, .vDict ys => beqValuePairs xs ys
  | .vObjectId a, .vObjectId a' => a == a'
  | .vPath p, .vPath p' => p == p'
  | .vEnum c v, .vEnum c' v' => c == c' && v == v'
  | .vFlag c bs, .vFlag c' bs' => c == c' && bs == bs'
  | .vRecord c at1, .vRecord c' at2 => c == c' && beqValueAttrs at1 at2
  | .vLazy c kvs, .vLazy c' kvs' => c == c' && beqDocKVs kvs kvs'
  | _, _ => false
termination_by structural a => a

/-- Elementwise equality of value lists. -/
def beqValueList : List Value → List Value → Bool
  | [], [] => true
  | x :: xs, y :: ys => beqValue x y && beqValueList xs ys
  | _, _ => false
termination_by structural a => a

/-- Elementwise equality of value pair lists. -/
def beqValuePairs : List (Value × Value) → List (Value × Value) → Bool
  | [], [] => true
  | (k, v) :: xs, (k', v') :: ys => beqValue k k' && beqValue v v' && beqValuePairs xs ys
  | _, _ => false
termination_by structural a => a

/-- Elementwise equality of attribute lists. -/
def beqValueAttrs : List (String × Value) → List (String × Value) → Bool
  | [], [] => true
  | (k, v) :: xs, (k', v') :: ys => k == k' && beqValue v v' && beqValueAttrs xs ys
  | _, _ => false
termination_by structural a => a

end

theorem beqValueList_iff_of (xs ys : List Value)
    (h : ∀ x ∈ xs, ∀ y, beqValue x y = true ↔ x = y) :
    beqValueList xs ys = true ↔ xs = ys := by
  induction xs generalizing ys with
  | nil => cases ys <;> simp [beqValueList]
  | cons x xs ih =>
    cases ys with
    | nil => simp [beqValueList]
    | cons y ys =>
      simp only [beqValueList, Bool.and_eq_true, List.cons.injEq]
      rw [h x (List.mem_cons_self x xs) y,
        ih ys (fun a ha => h a (List.mem_cons_of_mem x ha))]

theorem beqValuePairs_iff_of (xs ys : List (Value × Value))
    (h : ∀ p ∈ xs, (∀ y, beqValue p.1 y = true ↔ p.1 = y) ∧
                   (∀ y, beqValue p.2 y = true ↔ p.2 = y)) :
    beqValuePairs xs ys = true ↔ xs = ys := by
  induction xs generalizing ys with
  | nil => cases ys <;> simp [beqValuePairs]
  | cons x xs ih =>
    obtain ⟨k, v⟩ := x
    cases ys with
    | nil => simp [beqValuePairs]
    | cons y ys =>
      obtain ⟨k', v'⟩ := y
      simp only [beqValuePairs, Bool.and_eq_true, List.cons.injEq, Prod.mk.injEq]
      rw [(h (k, v) (List.mem_cons_self _ xs)).1 k',
        (h (k, v) (List.mem_cons_self _ xs)).2 v',
        ih ys (fun a ha => h a (List.mem_cons_of_mem _ ha))]

theorem beqValueAttrs_iff_of (xs ys : List (String × Value))
    (h : ∀ p ∈ xs, ∀ y, beqValue p.2 y = true ↔ p.2 = y) :
    beqValueAttrs xs ys = true ↔ xs = ys := by
  induction xs generalizing ys with
  | nil => cases ys <;> simp [beqValueAttrs]
  | cons x xs ih =>
    obtain ⟨k, v⟩ := x
    cases ys with
    | nil => simp [beqValueAttrs]
    | cons y ys =>
      obtain ⟨k', v'⟩ := y
      simp only [beqValueAttrs, Bool.and_eq_true, List.cons.injEq, Prod.mk.injEq,
        beq_iff_eq]
      rw [(h (k, v) (List.mem_cons_self _ xs)) v',
        ih ys (fun a ha => h a (List.mem_cons_of_mem _ ha))]

theorem beqValue_iff_aux :
    ∀ n, ∀ a : Value, sizeOf a ≤ n → ∀ b, beqValue a b = true ↔ a = b := by
  intro n
  induction n with
  | zero =>
    intro a ha
    exfalso
    cases a <;> simp at ha
  | succ n ih =>
    intro a ha b
    cases a <;> cases b <;> simp_all [beqValue]
    case vList.vList xs ys =>
      rw [beqValueList_iff_of xs ys]
      intro x hx y
      exact ih x (by have := List.sizeOf_lt_of_mem hx; omega) y
    case vTuple.vTuple xs ys =>
      rw [beqValueList_iff_of xs ys]
      intro x hx y
      exact ih x (by have := List.sizeOf_lt_of_mem hx; omega) y
    case vSet.vSet xs ys =>
      rw [beqValueList_iff_of xs ys]
      intro x hx y
      exact ih x (by have := List.sizeOf_lt_of_mem hx; omega) y
    case vDict.vDict xs ys =>
      rw [beqValuePairs_iff_of xs ys]
      intro p hp
      have h1 := List.sizeOf_lt_of_mem hp
      obtain ⟨u, w⟩ := p
      have h2 : sizeOf u ≤ n ∧ sizeOf w ≤ n := by simp at h1; omega
      exact ⟨ih u h2.1, ih w h2.2⟩
    case vRecord.vRecord c at1 c' at2 =>
      rw [beqValueAttrs_iff_of at1 at2]
      · tauto
      · intro p hp
        have h1 := List.sizeOf_lt_of_mem hp
        obtain ⟨u, w⟩ := p
        exact ih w (by simp at h1; omega)
    case vLazy.vLazy c kvs c' kvs' =>
      rw [beqDocKVs_iff_of kvs kvs'
        (fun p _ => ⟨beqDoc_iff p.1, beqDoc_iff p.2⟩)]
      tauto

theorem beqValue_iff (a b : Value) : beqValue a b = true ↔ a = b :=
  beqValue_iff_aux (sizeOf a) a le_rfl b

instance : DecidableEq Value := fun a b => decidable_of_iff _ (beqValue_iff a b)

/-! ## Errors

`common.SerdeError` carries a human-readable message; the model keeps the
message structured, one constructor per raise site.  Serialization-side
`assert` statements raise `AssertionError`, a different exception kind,
modelled by `Err.assertFail`.  `common_serialize` raises `ValueError` for
unsupported non-class types.  `getattr` on a missing attribute raises
`AttributeError`.  Exceeding Python's recursion limit is `Err.recursionError`
(the fuel running out).  `Err.outsideModel` marks inputs beyond this
embedding's wire model (see the doc comments at the use sites). -/
inductive SerdeMsg where
  | expectedGot (expected : String)
  | missingTimezone
  | missingField (doc_name : String)
  | superfluousFields (keys : List Doc)
  | expectedObject
  | missingTypeField
  | invalidTypeTag (tag : Doc)
  | invalidEnumValue (s : String)
  | expectedList
  | expectedEnumString
  | wrongListLength (expected got : Nat)
  deriving DecidableEq

/-- Exception kinds observable from the engine. -/
inductive Err where
  | serde (m : SerdeMsg)
  | assertFail
  | valueError
  | attributeError
  | recursionError
  | outsideModel
  deriving DecidableEq

/-- Checks whether an exception is the engine's structured `SerdeError`. -/
def Err.isSerde : Err → Bool
  | .serde _ => true
  | _ => false

instance {ε α : Type} [DecidableEq ε] [DecidableEq α] : DecidableEq (Except ε α) :=
  fun a b =>
    match a, b with
    | .ok x, .ok y =>
      match decEq x y with
      | isTrue h => isTrue (by rw [h])
      | isFalse h => isFalse (by simp [h])
    | .error e, .error f =>
      match decEq e f with
      | isTrue h => isTrue (by rw [h])
      | isFalse h => isFalse (by simp [h])
    | .ok _, .error _ => isFalse (by simp)
    | .error _, .ok _ => isFalse (by simp)

/-! ## Class environment

The engine discovers classes by runtime reflection
(`common.custom_get_type_hints`, `cls.__subclasses__`,
`__serde_serialize_as_child__`).  The model captures that reflection data in
an explicit environment: each class definition carries the full resolved
field list that `get_type_hints` would return (inherited fields included,
in order), its direct base class, whether the `as_child` decorator was
applied to it, and whether the class defines `__getattr__` (which disables
the lazy wrapper, `lazy_wrapper.can_create_lazy_instance`).  Enumerations
carry their member names in definition order; a `flg` definition is an
`enum.Flag` with one bit per member.  Classes with custom
`as_json`/`from_json`-style override methods are outside the modelled
fragment (no claim exercises them). -/
inductive TypeDef where
  | cls (fields : List (String × Ty)) (parent : Option String)
        (asChildMarked : Bool) (hasGetattr : Bool)
  | enm (variants : List String)
  | flg (variants : List String)
  deriving DecidableEq

/-- Environment of class definitions, in definition order. -/
structure Env where
  defs : List (String × TypeDef)

/-- Looks a class name up in the environment. -/
def lookupDef (env : Env) (c : String) : Option TypeDef :=
  env.defs.lookup c

/-- Bounded walk up the base-class chain checking for the
`__serde_serialize_as_child__` attribute (inherited in Python). -/
def asChildAux (env : Env) : Nat → String → Bool
  | 0, _ => false
  | fuel + 1, c =>
    match lookupDef env c with
    | some (.cls _ parent marked _) =>
      marked ||
        match parent with
        | some p => asChildAux env fuel p
        | none => false
    | _ => false

/-- Model of `common.should_serialize_as_child`: the class or one of its
ancestors carries the `as_child` marker. -/
def should_serialize_as_child (env : Env) (c : String) : Bool :=
  asChildAux env env.defs.length c

/-- Direct subclasses of `c` (`cls.__subclasses__()`), in definition order. -/
def directSubclasses (env : Env) (c : String) : List String :=
  (env.defs.filterMap fun (name, td) =>
    match td with
    | .cls _ (some p) _ _ => if p = c then some name else none
    | _ => none)

/-- Bounded preorder walk for `common.all_subclasses` (with
`include_cls = True`). -/
def allSubclassesAux (env : Env) : Nat → String → List String
  | 0, c => [c]
  | fuel + 1, c =>
    c :: (directSubclasses env c).flatMap (fun s => allSubclassesAux env fuel s)

/-- Model of `common.all_subclasses cls True`: the class itself followed by
all direct and indirect subclasses, preorder. -/
def all_subclasses (env : Env) (c : String) : List String :=
  allSubclassesAux env env.defs.length c

/-! ## Type keys (common.get_type_key) -/

/-- Canonical dispatch keys: `typing.get_origin` collapses parameterized
containers to their bare shape and `Optional`/unions to `Union`; everything
else keys to itself. -/
inductive TypeKey where
  | bool
  | int
  | float
  | str
  | bytes
  | datetime
  | timedelta
  | list
  | tuple
  | set
  | dict
  | union
  | any
  | objectId
  | literal
  | path
  | named (cls : String)
  deriving DecidableEq, Repr

/-- Model of `common.get_type_key`. -/
def get_type_key : Ty → TypeKey
  | .bool => .bool
  | .int => .int
  | .float => .float
  | .str => .str
  | .bytes => .bytes
  | .datetime => .datetime
  | .timedelta => .timedelta
  | .list _ => .list
  | .tuple _ => .tuple
  | .set _ => .set
  | .dict _ _ => .dict
  | .optional _ => .union
  | .any => .any
  | .objectId => .objectId
  | .lit _ => .literal
  | .path => .path
  | .named c => .named c

/-- Cache key used by `CachingSerDeserializer._get_handler`
(`self._handler_cache[(self._lazy, type_key)]`): the laziness flag paired
with the normalized type key — the generic parameters of a container are
not part of the key. -/
def handler_cache_key (lazy : Bool) (ty : Ty) : Bool × TypeKey :=
  (lazy, get_type_key ty)

/-! ## Python dictionary / set primitives -/

/-- Model of `dict.pop(key)` for a string key: remove and return the first
(unique) binding of `.str k`. -/
def popStrKey (k : String) : List (Doc × Doc) → Option (Doc × List (Doc × Doc))
  | [] => none
  | (k', v) :: rest =>
    if k' = Doc.str k then some (v, rest)
    else
      match popStrKey k rest with
      | none => none
      | some (v', rest') => some (v', (k', v) :: rest')

/-- Lookup of a string key in a document object. -/
def lookupStrKey (k : String) : List (Doc × Doc) → Option Doc
  | [] => none
  | (k', v) :: rest => if k' = Doc.str k then some v else lookupStrKey k rest

/-- Model of Python `d[k] = v`: replace the value in place if the key
exists (keeping its position), else append. -/
def pyDictInsert {α β : Type} [DecidableEq α] (kvs : List (α × β)) (k : α) (v : β) :
    List (α × β) :=
  match kvs with
  | [] => [(k, v)]
  | (k', v') :: rest =>
    if k' = k then (k', v) :: rest
    else (k', v') :: pyDictInsert rest k v

/-- Builds a Python dict from a key/value sequence (the semantics of a dict
display or comprehension: later duplicate keys override earlier ones). -/
def pyDictOfList {α β : Type} [DecidableEq α] (kvs : List (α × β)) : List (α × β) :=
  kvs.foldl (fun acc p => pyDictInsert acc p.1 p.2) []

/-- Model of building a Python `set` from a sequence: keep the first
occurrence of each element, in encounter order. -/
def pySetOfList (xs : List Value) : List Value :=
  xs.foldl (fun acc v => if v ∈ acc then acc else acc ++ [v]) []

/-! ## Wire formats -/

/-- The two wire formats; the serializers and deserializers for both share
one algorithm (`common_serialize`, `CachingSerDeserializer`) and differ in
the leaf converters, the passthrough sets and the BSON `id` → `_id`
renaming. -/
inductive Fmt where
  | json
  | bson
  deriving DecidableEq, Repr

/-- Wire name of a field on the deserialization side
(`JsonDeserializer._get_class_fields` / `BsonDeserializer._get_class_fields`):
snake_case → camelCase, with the BSON identity field `id` mapped to `_id`. -/
def wireName (fmt : Fmt) (py : String) : String :=
  match fmt with
  | .json => all_lower_to_camel_case py
  | .bson => if py = "id" then "_id" else all_lower_to_camel_case py

/-! ## The `Any` passthrough

`serialize_any` and `_deserialize_any` return their argument unchanged: a
value of declared type `Any` must itself already be wire-shaped.  The
embedding's `Value`/`Doc` split makes that identity an explicit coercion on
the JSON-shaped fragment; values and documents outside it (where Python
would pass through an object foreign to the wire format, or where the model
does not carry the literal text of a codec-produced string) map to `none`,
surfacing as `Err.outsideModel`. -/

mutual

/-- Wire document corresponding to an already-JSON-shaped value. -/
def valueToDoc : Value → Option Doc
  | .vNone => some .null
  | .vBool b => some (.bool b)
  | .vInt n => some (.int n)
  | .vFloat q => some (.float q)
  | .vStr s => some (.str s)
  | .vBytes bs => some (.bytesNative bs)
  | .vDatetime stamp tz => some (.dtNative stamp tz)
  | .vObjectId oid => some (.oidNative oid)
  | .vList xs => (valueListToDoc xs).map Doc.arr
  | .vDict kvs => (valuePairsToDoc kvs).map Doc.obj
  | _ => none

/-- Elementwise `valueToDoc`. -/
def valueListToDoc : List Value → Option (List Doc)
  | [] => some []
  | x :: xs =>
    match valueToDoc x, valueListToDoc xs with
    | some d, some ds => some (d :: ds)
    | _, _ => none

/-- Pairwise `valueToDoc`. -/
def valuePairsToDoc : List (Value × Value) → Option (List (Doc × Doc))
  | [] => some []
  | (k, v) :: xs =>
    match valueToDoc k, valueToDoc v, valuePairsToDoc xs with
    | some kd, some vd, some ds => some ((kd, vd) :: ds)
    | _, _, _ => none

end

mutual

/-- Value corresponding to a wire document returned unchanged by
`_deserialize_any`. -/
def docToValueRaw : Doc → Option Value
  | .null => some .vNone
  | .bool b => some (.vBool b)
  | .int n => some (.vInt n)
  | .float q => some (.vFloat q)
  | .str s => some (.vStr s)
  | .bytesNative bs => some (.vBytes bs)
  | .dtNative stamp tz => some (.vDatetime stamp tz)
  | .oidNative oid => some (.vObjectId oid)
  | .arr xs => (docListToValue xs).map Value.vList
  | .obj kvs => (docPairsToValue kvs).map Value.vDict
  | _ => none

/-- Elementwise `docToValueRaw`. -/
def docListToValue : List Doc → Option (List Value)
  | [] => some []
  | x :: xs =>
    match docToValueRaw x, docListToValue xs with
    | some v, some vs => some (v :: vs)
    | _, _ => none

/-- Pairwise `docToValueRaw`. -/
def docPairsToValue : List (Doc × Doc) → Option (List (Value × Value))
  | [] => some []
  | (k, v) :: xs =>
    match docToValueRaw k, docToValueRaw v, docPairsToValue xs with
    | some kv, some vv, some vs => some ((kv, vv) :: vs)
    | _, _, _ => none

end

/-! ## Serialization (json_serialize.py, bson_serialize.py, common.common_serialize) -/

/-- Bounded walk up the base-class chain for Python's `issubclass`. -/
def issubclassAux (env : Env) : Nat → String → String → Bool
  | 0, _, _ => false
  | fuel + 1, rc, c =>
    rc = c ||
      match lookupDef env rc with
      | some (.cls _ (some p) _ _) => issubclassAux env fuel p c
      | _ => false

/-- Model of `issubclass(rc, c)` on the environment's single-inheritance
class graph. -/
def issubclass (env : Env) (rc c : String) : Bool :=
  issubclassAux env (env.defs.length + 1) rc c

/-- Attribute dictionary read by `getattr` during field serialization:
record instances expose their attrs, any other value has none of the
declared fields (so `getattr` raises `AttributeError`). -/
def getattrDict : Value → List (String × Value)
  | .vRecord _ attrs => attrs
  | _ => []

/-- Field loop of `serialize_class`: for each declared field of the class
(`custom_get_type_hints`, in order), look the attribute up on the instance
and serialize it under its camelCase wire name.  Serialization recursion is
passed in as `ser`. -/
def serializeFieldsWith (ser : Ty → Value → Except Err Doc)
    (attrs : List (String × Value)) :
    List (String × Ty) → Except Err (List (Doc × Doc))
  | [] => .ok []
  | (py, fty) :: rest =>
    match attrs.lookup py with
    | none => .error .attributeError
    | some fv =>
      match ser fty fv with
      | .error e => .error e
      | .ok d =>
        match serializeFieldsWith ser attrs rest with
        | .error e => .error e
        | .ok ds => .ok ((Doc.str (all_lower_to_camel_case py), d) :: ds)

/-- The BSON `serialize_class` epilogue: rename `id` to `_id` (moving it to
the end, as `result["_id"] = result.pop("id")` does) unless an `_id` key is
already present.  The JSON format leaves the document unchanged. -/
def bsonIdFix (fmt : Fmt) (kvs : List (Doc × Doc)) : List (Doc × Doc) :=
  match fmt with
  | .json => kvs
  | .bson =>
    match lookupStrKey "_id" kvs with
    | some _ => kvs
    | none =>
      match popStrKey "id" kvs with
      | none => kvs
      | some (v, rest) => rest ++ [(Doc.str "_id", v)]

/-- Model of `common_serialize` specialized to the two formats'
serializer tables (`JSON_SERIALIZERS` / `BSON_SERIALIZERS`) and
`serialize_class`.  Serialization-side type checks are `assert` statements
in the source and fail with `Err.assertFail`; a type with no serializer that
is not a class raises `ValueError` (cannot happen for the embedded `Ty`).
The fuel models Python's recursion limit. -/
def common_serialize (fmt : Fmt) (env : Env) : Nat → Ty → Value → Except Err Doc
  | 0, _, _ => .error .recursionError
  | fuel + 1, ty, v =>
    match ty with
    | .bool =>
      match v with
      | .vBool b => .ok (.bool b)
      | _ => .error .assertFail
    | .int =>
      match v with
      | .vInt n => .ok (.int n)
      | .vBool b => .ok (.bool b)
      | _ => .error .assertFail
    | .float =>
      match v with
      | .vFloat q => .ok (.float q)
      | .vInt n => .ok (.float n)
      | .vBool b => .ok (.float (if b then 1 else 0))
      | _ => .error .assertFail
    | .str =>
      match v with
      | .vStr s => .ok (.str s)
      | _ => .error .assertFail
    | .bytes =>
      match v with
      | .vBytes bs =>
        .ok (match fmt with
          | .json => .b64str bs
          | .bson => .bytesNative bs)
      | _ => .error .assertFail
    | .datetime =>
      match v with
      | .vDatetime stamp tz =>
        match tz with
        | none => .error .assertFail
        | some off =>
          .ok (match fmt with
            | .json => .dtstr stamp (some off)
            | .bson => .dtNative stamp (some off))
      | _ => .error .assertFail
    | .timedelta =>
      match v with
      | .vTimedelta q => .ok (.float q)
      | _ => .error .assertFail
    | .list t =>
      match v with
      | .vList xs => (xs.mapM (common_serialize fmt env fuel t)).map Doc.arr
      | _ => .error .assertFail
    | .tuple ts =>
      match v with
      | .vTuple xs =>
        if xs.length = ts.length then
          ((xs.zip ts).mapM (fun p => common_serialize fmt env fuel p.2 p.1)).map Doc.arr
        else .error .assertFail
      | _ => .error .assertFail
    | .set t =>
      match v with
      | .vSet xs => (xs.mapM (common_serialize fmt env fuel t)).map Doc.arr
      | _ => .error .assertFail
    | .dict kt vt =>
      match v with
      | .vDict kvs =>
        (kvs.mapM (fun (p : Value × Value) => do
          let kd ← common_serialize fmt env fuel kt p.1
          let vd ← common_serialize fmt env fuel vt p.2
          pure (kd, vd))).map (fun ps => Doc.obj (pyDictOfList ps))
      | _ => .error .assertFail
    | .optional t =>
      match v with
      | .vNone => .ok .null
      | _ => common_serialize fmt env fuel t v
    | .any =>
      match valueToDoc v with
      | some d => .ok d
      | none => .error .outsideModel
    | .objectId =>
      match v with
      | .vObjectId oid =>
        .ok (match fmt with
          | .json => .oidstr oid
          | .bson => .oidNative oid)
      | _ => .error .assertFail
    | .lit _ =>
      match v with
      | .vStr s => .ok (.str s)
      | _ => .error .assertFail
    | .path =>
      match v with
      | .vPath p => .ok (.pathstr (pathAbsolute p))
      | _ => .error .assertFail
    | .named c =>
      match lookupDef env c with
      | none => .error .outsideModel
      | some (.flg _) =>
        match v with
        | .vFlag c' bits =>
          if c' = c then
            .ok (.arr (bits.map fun b => Doc.str (all_upper_to_camel_case b)))
          else .error .assertFail
        | _ => .error .assertFail
      | some (.enm _) =>
        match v with
        | .vEnum c' n =>
          if c' = c then .ok (.str (all_upper_to_camel_case n))
          else .error .assertFail
        | _ => .error .assertFail
      | some (.cls fields _ _ _) =>
        if should_serialize_as_child env c then
          match v with
          | .vRecord rc attrs =>
            if issubclass env rc c then
              match lookupDef env rc with
              | some (.cls rfields _ _ _) =>
                match serializeFieldsWith (common_serialize fmt env fuel) attrs rfields with
                | .error e => .error e
                | .ok ps =>
                  .ok (.obj (bsonIdFix fmt
                    (pyDictInsert (pyDictOfList ps) (Doc.str "type")
                      (Doc.str (upper_camel_case_to_camel_case rc)))))
              | _ => .error .outsideModel
            else .error .assertFail
          | _ => .error .assertFail
        else
          match serializeFieldsWith (common_serialize fmt env fuel) (getattrDict v) fields with
          | .error e => .error e
          | .ok ps => .ok (.obj (bsonIdFix fmt (pyDictOfList ps)))

/-- Model of `json_serialize.as_json` (with an explicit declared type; the
source defaults `as_type` to `type(value)`). -/
def as_json (env : Env) (fuel : Nat) (ty : Ty) (v : Value) : Except Err Doc :=
  common_serialize .json env fuel ty v

/-- Model of `bson_serialize.as_bson`. -/
def as_bson (env : Env) (fuel : Nat) (ty : Ty) (v : Value) : Except Err Doc :=
  common_serialize .bson env fuel ty v

/-! ## Deserialization (caching_serdeserializer.py, json_deserialize.py,
bson_deserialize.py, lazy_wrapper.py)

The caching is semantically transparent: a handler is a deterministic
function of the type, so the model gives the handler bodies directly,
dispatching the way the pre-populated `_handler_cache` does.  Note
`CachingSerDeserializer.__init_subclass__` overwrites the cache entries of
every passthrough type, so BSON `bytes`/`ObjectId` use native passthrough
even though the copied JSON cache contained text-based handlers for them. -/

/-- The `_passthrough_types` set of each deserializer subclass. -/
def passthroughTys (fmt : Fmt) : List Ty :=
  match fmt with
  | .json => [.bool, .int, .float, .str]
  | .bson => [.bool, .int, .float, .bytes, .str, .objectId]

/-- Passthrough handler (`make_handler_from_passthrough_type`): an
`isinstance` check, with two Python subtleties mirrored faithfully —
`bool` is a subclass of `int`, and an `int` offered for a `float` is
accepted and returned unchanged. -/
def passthroughDecode (ty : Ty) (d : Doc) : Except Err Value :=
  match ty, d with
  | .bool, .bool b => .ok (.vBool b)
  | .int, .int n => .ok (.vInt n)
  | .int, .bool b => .ok (.vBool b)
  | .float, .float q => .ok (.vFloat q)
  | .float, .int n => .ok (.vInt n)
  | .float, .bool b => .ok (.vBool b)
  | .str, .str s => .ok (.vStr s)
  | .bytes, .bytesNative bs => .ok (.vBytes bs)
  | .objectId, .oidNative oid => .ok (.vObjectId oid)
  | _, _ => .error (.serde (.expectedGot "passthrough type"))

/-- Model of `lazy_wrapper.can_create_lazy_instance`: the class must not
already define a `__getattr__` of its own. -/
def can_create_lazy_instance (env : Env) (c : String) : Bool :=
  match lookupDef env c with
  | some (.cls _ _ _ hasGetattr) => !hasGetattr
  | _ => true

/-- Inner loop of `FieldwiseClassHandler.__call__`: pop each declared
field's wire name from the raw document (mutating it — the state is
threaded) and decode the popped value with the field's handler `dec`. -/
def decodeFieldsWith (dec : Ty → Doc → Except Err Value) (fmt : Fmt) :
    List (String × Ty) → List (Doc × Doc) →
    Except Err (List (String × Value) × List (Doc × Doc))
  | [], raw => .ok ([], raw)
  | (py, fty) :: rest, raw =>
    match popStrKey (wireName fmt py) raw with
    | none => .error (.serde (.missingField (wireName fmt py)))
    | some (rawVal, raw') =>
      match dec fty rawVal with
      | .error e => .error e
      | .ok v =>
        match decodeFieldsWith dec fmt rest raw' with
        | .error e => .error e
        | .ok (attrs, rawRest) => .ok ((py, v) :: attrs, rawRest)

/-- Model of `FieldwiseClassHandler.__call__` (the eager record handler):
require a dict, consume every declared field in order, then reject any
unconsumed keys as superfluous. -/
def fieldwise_call (dec : Ty → Doc → Except Err Value) (fmt : Fmt)
    (cls : String) (fields : List (String × Ty)) (doc : Doc) : Except Err Value :=
  match doc with
  | .obj kvs =>
    match decodeFieldsWith dec fmt fields kvs with
    | .error e => .error e
    | .ok (attrs, rest) =>
      if rest.isEmpty then .ok (.vRecord cls attrs)
      else .error (.serde (.superfluousFields (rest.map Prod.fst)))
  | _ => .error (.serde .expectedObject)

/-- Model of `CachingSerDeserializer._create_fieldwise_class_handler`: in
lazy mode, when the class qualifies, `lazy_wrapper.create_lazy_instance`
builds a shell holding the whole raw document (after an
`assert isinstance(serialized, dict)`); otherwise the eager fieldwise
handler runs. -/
def fieldwise_handler (dec : Ty → Doc → Except Err Value) (fmt : Fmt)
    (env : Env) (lazy : Bool) (cls : String) (fields : List (String × Ty))
    (doc : Doc) : Except Err Value :=
  if lazy && can_create_lazy_instance env cls then
    match doc with
    | .obj kvs => .ok (.vLazy cls kvs)
    | _ => .error .assertFail
  else fieldwise_call dec fmt cls fields doc

/-- Loop of the `enum.Flag` handler (`handle_flag`): each list item must be
a string, is case-converted back to the Python member name and looked up
among the members; the member values are bitwise-or'ed together (the
resulting flag value is the set of collected member names, canonicalized to
definition order by the caller). -/
def decodeFlagItems (variants : List String) : List Doc → Except Err (List String)
  | [] => .ok []
  | d :: rest =>
    match d with
    | .str item =>
      if camel_case_to_all_upper item ∈ variants then
        match decodeFlagItems variants rest with
        | .error e => .error e
        | .ok names => .ok (camel_case_to_all_upper item :: names)
      else .error (.serde (.invalidEnumValue item))
    | _ => .error (.serde (.expectedGot "enumeration string"))

/-- Tag map precomputed by the `as_child` handler
(`child_classes_and_handlers_by_doc_name`): camelCase tag of every class in
`all_subclasses(base, True)`; a Python dict comprehension, so later
duplicate tags override earlier ones. -/
def childByTag (env : Env) (base : String) : List (String × String) :=
  pyDictOfList ((all_subclasses env base).map
    fun cname => (upper_camel_case_to_camel_case cname, cname))

/-- Model of `CachingSerDeserializer._create_class_handler` applied to its
argument (enum.Flag first, then enum.Enum, then the `as_child` handler,
then the plain fieldwise handler; the per-class override method case is
outside the modelled fragment).  The field-decoding recursion is passed in
as `dec`. -/
def handle_class (dec : Ty → Doc → Except Err Value) (fmt : Fmt) (env : Env)
    (lazy : Bool) (c : String) (doc : Doc) : Except Err Value :=
  match lookupDef env c with
  | none => .error .outsideModel
  | some (.flg variants) =>
    match doc with
    | .arr items => (decodeFlagItems variants items).map
        (fun names => Value.vFlag c (variants.filter (· ∈ names)))
    | _ => .error (.serde (.expectedGot "a list"))
  | some (.enm variants) =>
    match doc with
    | .str s =>
      if camel_case_to_all_upper s ∈ variants then
        .ok (.vEnum c (camel_case_to_all_upper s))
      else .error (.serde (.invalidEnumValue s))
    | _ => .error (.serde (.expectedGot "enumeration string"))
  | some (.cls fields _ _ _) =>
    if should_serialize_as_child env c then
      match doc with
      | .obj kvs =>
        match popStrKey "type" kvs with
        | none => .error (.serde .missingTypeField)
        | some (tagDoc, rest) =>
          match tagDoc with
          | .str tag =>
            match (childByTag env c).lookup tag with
            | none => .error (.serde (.invalidTypeTag (.str tag)))
            | some child =>
              match lookupDef env child with
              | some (.cls cfields _ _ _) =>
                fieldwise_handler dec fmt env lazy child cfields (.obj rest)
              | _ => .error .outsideModel
          | other => .error (.serde (.invalidTypeTag other))
      | _ => .error .outsideModel
    else fieldwise_handler dec fmt env lazy c fields doc

/-- Model of `CachingSerDeserializer.process` for either format: fast
passthrough check first, then the handler selected by the normalized type
key from the pre-populated `_handler_cache`, bottoming out at the class
handler.  `lazy` is the deserializer's `_lazy` flag, fuel models the
recursion limit. -/
def process (fmt : Fmt) (env : Env) (lazy : Bool) : Nat → Ty → Doc → Except Err Value
  | 0, _, _ => .error .recursionError
  | fuel + 1, ty, doc =>
    if ty ∈ passthroughTys fmt then passthroughDecode ty doc
    else
      match ty with
      | .bool | .int | .float | .str => passthroughDecode ty doc
      | .bytes =>
        match doc with
        | .b64str bs => .ok (.vBytes bs)
        | _ => .error (.serde (.expectedGot "bytes encoded as string"))
      | .datetime =>
        match fmt with
        | .json =>
          match doc with
          | .dtstr stamp tz =>
            match tz with
            | none => .error (.serde .missingTimezone)
            | some off => .ok (.vDatetime stamp (some off))
          | .str _ => .error (.serde (.expectedGot "date/time"))
          | _ => .error (.serde (.expectedGot "date/time string"))
        | .bson =>
          match doc with
          | .dtNative stamp tz =>
            match tz with
            | none => .ok (.vDatetime stamp (some 0))
            | some off => .ok (.vDatetime stamp (some off))
          | _ => .error (.serde (.expectedGot "datetime"))
      | .timedelta =>
        match doc with
        | .int n => .ok (.vTimedelta n)
        | .float q => .ok (.vTimedelta q)
        | .bool b => .ok (.vTimedelta (if b then 1 else 0))
        | _ => .error (.serde (.expectedGot "number"))
      | .tuple ts =>
        match doc with
        | .arr xs =>
          if xs.length = ts.length then
            ((xs.zip ts).mapM (fun p => process fmt env lazy fuel p.2 p.1)).map
              Value.vTuple
          else .error (.serde (.wrongListLength ts.length xs.length))
        | _ => .error (.serde (.expectedGot "list"))
      | .list t =>
        match doc with
        | .arr xs => (xs.mapM (process fmt env lazy fuel t)).map Value.vList
        | _ => .error (.serde (.expectedGot "list"))
      | .set t =>
        match doc with
        | .arr xs =>
          (xs.mapM (process fmt env lazy fuel t)).map
            (fun vs => Value.vSet (pySetOfList vs))
        | _ => .error (.serde (.expectedGot "list"))
      | .dict kt vt =>
        match doc with
        | .obj kvs =>
          (kvs.mapM (fun (p : Doc × Doc) => do
            let k ← process fmt env lazy fuel kt p.1
            let w ← process fmt env lazy fuel vt p.2
            pure (k, w))).map (fun ps => Value.vDict (pyDictOfList ps))
        | _ => .error (.serde (.expectedGot "dict"))
      | .optional t =>
        match doc with
        | .null => .ok .vNone
        | d => process fmt env lazy fuel t d
      | .any =>
        match docToValueRaw doc with
        | some v => .ok v
        | none => .error .outsideModel
      | .objectId =>
        match doc with
        | .oidstr oid => .ok (.vObjectId oid)
        | _ => .error (.serde (.expectedGot "ObjectId string"))
      | .lit options =>
        match doc with
        | .str s =>
          if s ∈ options then .ok (.vStr s)
          else .error (.serde (.expectedGot "literal"))
        | _ => .error (.serde (.expectedGot "literal"))
      | .path =>
        match doc with
        | .pathstr p => .ok (.vPath p)
        | .str _ => .error .outsideModel
        | _ => .error (.serde (.expectedGot "path string"))
      | .named c => handle_class (process fmt env lazy fuel) fmt env lazy c doc

/-- Model of `json_deserialize.from_json` (custom deserializers omitted:
no claim exercises them). -/
def from_json (env : Env) (lazy : Bool) (fuel : Nat) (ty : Ty) (doc : Doc) :
    Except Err Value :=
  process .json env lazy fuel ty doc

/-- Model of `bson_deserialize.from_bson`. -/
def from_bson (env : Env) (lazy : Bool) (fuel : Nat) (ty : Ty) (doc : Doc) :
    Except Err Value :=
  process .bson env lazy fuel ty doc

/-! ## Lazy field access (lazy_wrapper.py) -/

/-- Model of `lazy_wrapper._lazy_getattr` on a shell `vLazy cls remaining`:
look the attribute up in the class's field-definition map
(`_get_field_map`, built from `_get_class_fields` with the format's wire
naming), pop its raw value from the remaining-fields map (absence raises
the structured missing-field error), decode it with the stored lazy
deserializer's handler for the field type, and return it together with the
shell's new state (the source caches the decoded value on the instance and
shrinks `_uniserde_remaining_fields_` in place). -/
def lazy_getattr (fmt : Fmt) (env : Env) (fuel : Nat) (cls : String)
    (remaining : List (Doc × Doc)) (name : String) :
    Except Err (Value × List (Doc × Doc)) :=
  match lookupDef env cls with
  | some (.cls fields _ _ _) =>
    match fields.lookup name with
    | none => .error .attributeError
    | some fty =>
      match popStrKey (wireName fmt name) remaining with
      | none => .error (.serde (.missingField (wireName fmt name)))
      | some (rawVal, remaining') =>
        match process fmt env true fuel fty rawVal with
        | .error e => .error e
        | .ok v => .ok (v, remaining')
  | _ => .error .attributeError

/-- Reads the given attributes of a lazy shell one after the other,
threading the remaining-fields state through the reads. -/
def readFields (fmt : Fmt) (env : Env) (fuel : Nat) (cls : String) :
    List String → List (Doc × Doc) →
    Except Err (List (String × Value) × List (Doc × Doc))
  | [], remaining => .ok ([], remaining)
  | name :: rest, remaining =>
    match lazy_getattr fmt env fuel cls remaining name with
    | .error e => .error e
    | .ok (v, remaining') =>
      match readFields fmt env fuel cls rest remaining' with
      | .error e => .error e
      | .ok (vs, rem) => .ok ((name, v) :: vs, rem)

/-- Materializes a lazily decoded value: every declared field of a lazy
shell is read once (in declaration order) and the results are recursively
materialized, yielding the instance an eager decode would have produced.
Sets and dicts are re-normalized after materialization, mirroring Python's
comparison-based deduplication, which itself forces shell fields (e.g.
frozen dataclass `__eq__`/`__hash__` read the compared attributes). -/
def forceValue (fmt : Fmt) (env : Env) : Nat → Value → Except Err Value
  | 0, _ => .error .recursionError
  | fuel + 1, v =>
    match v with
    | .vLazy c kvs =>
      match lookupDef env c with
      | some (.cls fields _ _ _) =>
        match readFields fmt env fuel c (fields.map Prod.fst) kvs with
        | .error e => .error e
        | .ok (attrs, _) =>
          (attrs.mapM (fun (p : String × Value) =>
            (forceValue fmt env fuel p.2).map (fun w => (p.1, w)))).map
            (fun attrs' => Value.vRecord c attrs')
      | _ => .error .outsideModel
    | .vRecord c attrs =>
      (attrs.mapM (fun (p : String × Value) =>
        (forceValue fmt env fuel p.2).map (fun w => (p.1, w)))).map
        (fun attrs' => Value.vRecord c attrs')
    | .vList xs => (xs.mapM (forceValue fmt env fuel)).map Value.vList
    | .vTuple xs => (xs.mapM (forceValue fmt env fuel)).map Value.vTuple
    | .vSet xs =>
      (xs.mapM (forceValue fmt env fuel)).map
        (fun ws => Value.vSet (pySetOfList ws))
    | .vDict kvs =>
      (kvs.mapM (fun (p : Value × Value) => do
        let k ← forceValue fmt env fuel p.1
        let w ← forceValue fmt env fuel p.2
        pure (k, w))).map (fun ps => Value.vDict (pyDictOfList ps))
    | w => .ok w

/-! ## Schema generation (schema_mongodb.py) -/

/-- Field wire name used by the schema generator: camelCase, with the
identity field `id` renamed to `_id` (matching the BSON encoder). -/
def schemaWire (py : String) : String :=
  if py = "id" then "_id" else all_lower_to_camel_case py

/-- Classification loop of `_make_schema_union`: single-entry `type`
schemas contribute their tag(s) to the first component, single-entry
`bsonType` schemas to the second, everything else stays a sibling schema
(third component), all in iteration order. -/
def unionClassify : List Doc → List Doc × List Doc × List Doc
  | [] => ([], [], [])
  | s :: rest =>
    let r := unionClassify rest
    match s with
    | .obj [(k, v)] =>
      if k = Doc.str "type" then
        (match v with
          | .arr l => l ++ r.1
          | _ => v :: r.1,
         r.2.1, r.2.2)
      else if k = Doc.str "bsonType" then
        (r.1,
         match v with
         | .arr l => l ++ r.2.1
         | _ => v :: r.2.1,
         r.2.2)
      else (r.1, r.2.1, s :: r.2.2)
    | _ => (r.1, r.2.1, s :: r.2.2)

/-- Merge step of `_make_schema_union`: scalar type tags of the
alternatives are flattened into one multi-valued `type`/`bsonType` list;
non-scalar alternatives remain explicit siblings under `anyOf` (dropped
when a single schema remains). -/
def makeSchemaUnion (subs : List Doc) : Doc :=
  let c := unionClassify subs
  let merged :=
    if !c.2.1.isEmpty then [Doc.obj [(Doc.str "bsonType", Doc.arr (c.1 ++ c.2.1))]]
    else if !c.1.isEmpty then [Doc.obj [(Doc.str "type", Doc.arr c.1)]]
    else []
  match merged ++ c.2.2 with
  | [s] => s
  | subs' => .obj [(Doc.str "anyOf", Doc.arr subs')]

/-- Field loop of `_create_class_schema_ignore_serialize_as_child`:
schema of every declared field under its wire name, in order. -/
def class_schema_fields (sch : Ty → Except Err Doc) :
    List (String × Ty) → Except Err (List (Doc × Doc))
  | [] => .ok []
  | (py, fty) :: rest =>
    match sch fty with
    | .error e => .error e
    | .ok s =>
      match class_schema_fields sch rest with
      | .error e => .error e
      | .ok ds => .ok ((Doc.str (schemaWire py), s) :: ds)

/-- Model of `_create_class_schema_ignore_serialize_as_child`: an object
shape listing every field's wire name and nested schema plus — only when
the class has at least one field — a `required` list of all field wire
names. -/
def class_schema_ignore_as_child (sch : Ty → Except Err Doc)
    (fields : List (String × Ty)) : Except Err Doc :=
  match class_schema_fields sch fields with
  | .error e => .error e
  | .ok props =>
    let names := fields.map fun f => Doc.str (schemaWire f.1)
    let base := [(Doc.str "type", Doc.str "object"),
                 (Doc.str "properties", Doc.obj (pyDictOfList props)),
                 (Doc.str "additionalProperties", Doc.bool false)]
    .ok (.obj (if names.isEmpty then base else base ++ [(Doc.str "required", Doc.arr names)]))

/-- Pinning of the discriminator in an `as_child` sub-schema: the `type`
property becomes a single-literal enum, and `type` is inserted at the front
of the `required` list (`required.insert(0, "type")`; `setdefault` appends
the key when absent). -/
def pinTypeTag (S : Doc) (tag : String) : Doc :=
  match S with
  | .obj kvs =>
    let kvs1 :=
      match lookupStrKey "properties" kvs with
      | some (.obj props) =>
        pyDictInsert kvs (Doc.str "properties")
          (.obj (pyDictInsert props (Doc.str "type")
            (.obj [(Doc.str "enum", Doc.arr [Doc.str tag])])))
      | _ => kvs
    match lookupStrKey "required" kvs1 with
    | some (.arr names) =>
      .obj (pyDictInsert kvs1 (Doc.str "required") (.arr (Doc.str "type" :: names)))
    | _ => .obj (kvs1 ++ [(Doc.str "required", Doc.arr [Doc.str "type"])])
  | s => s

/-- Sub-schema loop of `_make_schema_class` for an `as_child` base: one
pinned schema per class in `all_subclasses(value_type, True)`. -/
def asChildSubSchemas (env : Env) (sch : Ty → Except Err Doc) :
    List String → Except Err (List Doc)
  | [] => .ok []
  | sub :: rest =>
    match lookupDef env sub with
    | some (.cls sfields _ _ _) =>
      match class_schema_ignore_as_child sch sfields with
      | .error e => .error e
      | .ok S =>
        match asChildSubSchemas env sch rest with
        | .error e => .error e
        | .ok Ss => .ok (pinTypeTag S (upper_camel_case_to_camel_case sub) :: Ss)
    | _ => .error .outsideModel

/-- Model of `schema_mongodb.as_mongodb_schema` /
`MongoDbSchemaBuilder.process`: the independent BSON-flavored dispatch
table producing shape descriptors.  The `dict` handler asserts string keys;
recursive schemas exhaust the fuel like Python's recursion limit. -/
def as_mongodb_schema (env : Env) : Nat → Ty → Except Err Doc
  | 0, _ => .error .recursionError
  | fuel + 1, ty =>
    match ty with
    | .bool => .ok (.obj [(Doc.str "type", Doc.str "boolean")])
    | .int => .ok (.obj [(Doc.str "bsonType", Doc.arr [Doc.str "int", Doc.str "long"])])
    | .float =>
      .ok (.obj [(Doc.str "bsonType",
        Doc.arr [Doc.str "int", Doc.str "long", Doc.str "double"])])
    | .bytes => .ok (.obj [(Doc.str "bsonType", Doc.str "binData")])
    | .str => .ok (.obj [(Doc.str "type", Doc.str "string")])
    | .datetime => .ok (.obj [(Doc.str "bsonType", Doc.str "date")])
    | .timedelta =>
      .ok (.obj [(Doc.str "bsonType",
        Doc.arr [Doc.str "int", Doc.str "long", Doc.str "double"])])
    | .tuple ts =>
      (ts.mapM (as_mongodb_schema env fuel)).map
        (fun ss => .obj [(Doc.str "type", Doc.str "array"), (Doc.str "items", .arr ss)])
    | .list t =>
      (as_mongodb_schema env fuel t).map
        (fun s => .obj [(Doc.str "type", Doc.str "array"), (Doc.str "items", s)])
    | .set t =>
      (as_mongodb_schema env fuel t).map
        (fun s => .obj [(Doc.str "type", Doc.str "array"), (Doc.str "items", s)])
    | .path => .ok (.obj [(Doc.str "type", Doc.str "string")])
    | .dict kt vt =>
      if kt = Ty.str then
        (as_mongodb_schema env fuel vt).map
          (fun s => .obj [(Doc.str "type", Doc.str "object"), (Doc.str "items", s)])
      else .error .assertFail
    | .objectId => .ok (.obj [(Doc.str "bsonType", Doc.str "objectId")])
    | .lit _ => .ok (.obj [(Doc.str "type", Doc.str "string")])
    | .optional t =>
      match as_mongodb_schema env fuel t with
      | .error e => .error e
      | .ok s => .ok (makeSchemaUnion [s, .obj [(Doc.str "type", Doc.str "null")]])
    | .any => .ok (.obj [])
    | .named c =>
      match lookupDef env c with
      | none => .error .outsideModel
      | some (.flg variants) =>
        .ok (.obj [(Doc.str "type", Doc.str "array"),
          (Doc.str "items", .obj [(Doc.str "enum",
            Doc.arr (variants.map fun v => Doc.str (all_upper_to_camel_case v)))])])
      | some (.enm variants) =>
        .ok (.obj [(Doc.str "enum",
          Doc.arr (variants.map fun v => Doc.str (all_upper_to_camel_case v)))])
      | some (.cls fields _ _ _) =>
        if !(should_serialize_as_child env c) then
          class_schema_ignore_as_child (as_mongodb_schema env fuel) fields
        else
          match asChildSubSchemas env (as_mongodb_schema env fuel) (all_subclasses env c) with
          | .error e => .error e
          | .ok [S] => .ok S
          | .ok Ss => .ok (.obj [(Doc.str "anyOf", Doc.arr Ss)])

/-! ## Supported values and well-formed environments

`wt env fuel ty v` is the bridge predicate carving out the supported
values of a declared type that the spec's round-trip property quantifies
over: well-typed scalars, containers with distinct set elements and dict
keys, non-nested optionals (`Optional[Optional[X]]` flattens in Python's
type system and is not constructible), enum/flag members of the declared
enumeration (flag values in canonical definition order, as `enum.Flag`
stores a bit set), and record instances whose attribute dictionary matches
the declared field list — for an open (`as_child`) base, an instance of a
registered subclass.  Values of declared type `Any` are excluded: the
engine passes them through as raw wire objects, outside the typed
round-trip property.  The date/time zone requirement of the spec is
included here (`tz.isSome`). -/

/-- Boolean sublist test (order-preserving containment). -/
def isSublistB : List String → List String → Bool
  | [], _ => true
  | _ :: _, [] => false
  | x :: xs, y :: ys =>
    if x = y then isSublistB xs ys else isSublistB (x :: xs) ys

/-- Supported value `v` at declared type `ty` (fuel-bounded recursion
through the environment's field types). -/
def wt (env : Env) : Nat → Ty → Value → Bool
  | 0, _, _ => false
  | fuel + 1, ty, v =>
    match ty, v with
    | .bool, .vBool _ => true
    | .int, .vInt _ => true
    | .float, .vFloat _ => true
    | .str, .vStr _ => true
    | .bytes, .vBytes _ => true
    | .datetime, .vDatetime _ tz => tz.isSome
    | .timedelta, .vTimedelta _ => true
    | .list t, .vList xs => xs.all (wt env fuel t)
    | .tuple ts, .vTuple xs =>
      xs.length == ts.length && (xs.zip ts).all (fun p => wt env fuel p.2 p.1)
    | .set t, .vSet xs => xs.all (wt env fuel t) && decide xs.Nodup
    | .dict kt vt, .vDict kvs =>
      kvs.all (fun p => wt env fuel kt p.1 && wt env fuel vt p.2) &&
        decide (kvs.map Prod.fst).Nodup
    | .optional (.optional _), _ => false
    | .optional _, .vNone => true
    | .optional t, w => wt env fuel t w
    | .objectId, .vObjectId _ => true
    | .lit options, .vStr s => decide (s ∈ options)
    | .path, .vPath _ => true
    | .named c, .vRecord rc attrs =>
      (match lookupDef env c, lookupDef env rc with
       | some (.cls _ _ _ _), some (.cls rfields _ _ _) =>
         (if should_serialize_as_child env c then
            decide (rc ∈ all_subclasses env c) && issubclass env rc c &&
              should_serialize_as_child env rc
          else rc == c) &&
         decide (attrs.map Prod.fst = rfields.map Prod.fst) &&
         (rfields.zip attrs).all (fun p => wt env fuel p.1.2 p.2.2)
       | _, _ => false)
    | .named c, .vEnum c' n =>
      c' == c &&
        (match lookupDef env c with
         | some (.enm vars) => decide (n ∈ vars)
         | _ => false)
    | .named c, .vFlag c' bits =>
      c' == c &&
        (match lookupDef env c with
         | some (.flg vars) => isSublistB bits vars
         | _ => false)
    | _, _ => false

mutual

/-- All `pathlib.Path` values inside `v` are absolute (relative paths do
not survive the engine's `Path.absolute()` serialization). -/
def absPathsV : Value → Bool
  | .vPath p => p.isAbs
  | .vList xs => absPathsL xs
  | .vTuple xs => absPathsL xs
  | .vSet xs => absPathsL xs
  | .vDict kvs => absPathsP kvs
  | .vRecord _ ats => absPathsA ats
  | _ => true
termination_by structural a => a

/-- Elementwise `absPathsV`. -/
def absPathsL : List Value → Bool
  | [] => true
  | x :: xs => absPathsV x && absPathsL xs
termination_by structural a => a

/-- Pairwise `absPathsV`. -/
def absPathsP : List (Value × Value) → Bool
  | [] => true
  | (k, v) :: xs => absPathsV k && absPathsV v && absPathsP xs
termination_by structural a => a

/-- Attribute-wise `absPathsV`. -/
def absPathsA : List (String × Value) → Bool
  | [] => true
  | (_, v) :: xs => absPathsV v && absPathsA xs
termination_by structural a => a

end

/-- Well-formedness of one class definition: distinct snake_case field
names with distinct wire names in both formats, no wire name colliding with
the reserved `_id` key, the wire name `id` only for the identity field
itself, and — for members of an open (`as_child`) hierarchy — no field wire
name colliding with the discriminator key `type`. -/
def clsWF (env : Env) (name : String) (fields : List (String × Ty)) : Bool :=
  decide (fields.map Prod.fst).Nodup &&
  fields.all (fun f => _is_lower f.1) &&
  decide (fields.map (fun f => all_lower_to_camel_case f.1)).Nodup &&
  decide (fields.map (fun f => wireName .bson f.1)).Nodup &&
  fields.all (fun f => all_lower_to_camel_case f.1 != "_id") &&
  fields.all (fun f => !(all_lower_to_camel_case f.1 == "id") || f.1 == "id") &&
  (!(should_serialize_as_child env name) ||
    fields.all (fun f => all_lower_to_camel_case f.1 != "type"))

/-- Well-formedness of an enumeration: distinct ALL_UPPER member names on
which the camelCase conversion round-trips, with distinct camelCase forms. -/
def enumWF (variants : List String) : Bool :=
  decide variants.Nodup &&
  variants.all (fun v => camel_case_to_all_upper (all_upper_to_camel_case v) == v) &&
  decide (variants.map all_upper_to_camel_case).Nodup

/-- Well-formedness of a whole environment: distinct class names, each
definition well formed, and — for every open hierarchy — distinct
discriminator tags across `all_subclasses`. -/
def envWF (env : Env) : Bool :=
  decide ((env.defs.map Prod.fst).Nodup) &&
  env.defs.all (fun p =>
    match p.2 with
    | .cls fields _ _ _ => clsWF env p.1 fields
    | .enm vs => enumWF vs
    | .flg vs => enumWF vs) &&
  env.defs.all (fun p =>
    !(should_serialize_as_child env p.1) ||
      decide (((all_subclasses env p.1).map upper_camel_case_to_camel_case).Nodup))

/-! ## Helper lemmas on the dictionary primitives -/

theorem popStrKey_sublist {k : String} :
    ∀ {kvs rest : List (Doc × Doc)} {v : Doc},
      popStrKey k kvs = some (v, rest) → rest.Sublist kvs := by
  intro kvs
  induction kvs with
  | nil => intro rest v h; simp [popStrKey] at h
  | cons p kvs ih =>
    intro rest v h
    obtain ⟨k', v'⟩ := p
    simp only [popStrKey] at h
    split at h
    · cases h with
      | refl => exact List.sublist_cons_self _ _
    · cases hrec : popStrKey k kvs with
      | none => rw [hrec] at h; cases h
      | some pr =>
        obtain ⟨v'', rest''⟩ := pr
        rw [hrec] at h
        cases h with
        | refl => exact (ih hrec).cons₂ _

theorem popStrKey_none_iff {k : String} :
    ∀ {kvs : List (Doc × Doc)},
      popStrKey k kvs = none ↔ Doc.str k ∉ kvs.map Prod.fst := by
  intro kvs
  induction kvs with
  | nil => simp [popStrKey]
  | cons p kvs ih =>
    obtain ⟨k', v'⟩ := p
    simp only [popStrKey, List.map_cons, List.mem_cons]
    split
    · rename_i h; simp [h]
    · rename_i h
      cases hrec : popStrKey k kvs with
      | none => simp_all [eq_comm]
      | some pr => obtain ⟨a, b⟩ := pr; simp_all [eq_comm]

theorem popStrKey_split {k : String} :
    ∀ {kvs rest : List (Doc × Doc)} {v : Doc},
      popStrKey k kvs = some (v, rest) →
      ∃ l1 l2, kvs = l1 ++ (Doc.str k, v) :: l2 ∧ rest = l1 ++ l2 ∧
        Doc.str k ∉ l1.map Prod.fst := by
  intro kvs
  induction kvs with
  | nil => intro rest v h; simp [popStrKey] at h
  | cons p kvs ih =>
    intro rest v h
    obtain ⟨k', v'⟩ := p
    simp only [popStrKey] at h
    split at h
    · rename_i heq
      cases h with
      | refl => exact ⟨[], kvs, by simp [heq]⟩
    · rename_i hne
      cases hrec : popStrKey k kvs with
      | none => rw [hrec] at h; cases h
      | some pr =>
        obtain ⟨v'', rest''⟩ := pr
        rw [hrec] at h
        cases h with
        | refl =>
          obtain ⟨l1, l2, h1, h2, h3⟩ := ih hrec
          exact ⟨(k', v') :: l1, l2, by simp [h1], by simp [h2],
            by simp [h3, Ne.symm hne]⟩

theorem pyDictInsert_append {α β : Type} [DecidableEq α] :
    ∀ {kvs : List (α × β)} {k : α} {v : β},
      k ∉ kvs.map Prod.fst → pyDictInsert kvs k v = kvs ++ [(k, v)] := by
  intro kvs
  induction kvs with
  | nil => intro k v _; simp [pyDictInsert]
  | cons p kvs ih =>
    intro k v h
    obtain ⟨k', v'⟩ := p
    simp only [List.map_cons, List.mem_cons] at h
    push_neg at h
    simp [pyDictInsert, Ne.symm h.1, ih h.2]

theorem pyDictOfList_aux {α β : Type} [DecidableEq α] :
    ∀ (kvs acc : List (α × β)),
      ((acc ++ kvs).map Prod.fst).Nodup →
      kvs.foldl (fun acc p => pyDictInsert acc p.1 p.2) acc = acc ++ kvs := by
  intro kvs
  induction kvs with
  | nil => intro acc _; simp
  | cons p kvs ih =>
    intro acc h
    obtain ⟨k, v⟩ := p
    have hk : k ∉ acc.map Prod.fst := by
      simp only [List.map_append, List.nodup_append] at h
      intro hmem
      exact h.2.2 hmem (by simp)
    have h2 : (((acc ++ [(k, v)]) ++ kvs).map Prod.fst).Nodup := by
      simpa [List.append_assoc] using h
    simp only [List.foldl_cons, pyDictInsert_append hk]
    rw [ih (acc ++ [(k, v)]) h2]
    simp

/-- A Python dict display with distinct keys is the key/value list itself. -/
theorem pyDictOfList_eq {α β : Type} [DecidableEq α] {kvs : List (α × β)}
    (h : (kvs.map Prod.fst).Nodup) : pyDictOfList kvs = kvs := by
  simpa using pyDictOfList_aux kvs [] (by simpa using h)

theorem pySetOfList_aux :
    ∀ (xs acc : List Value), (acc ++ xs).Nodup →
      xs.foldl (fun acc v => if v ∈ acc then acc else acc ++ [v]) acc = acc ++ xs := by
  intro xs
  induction xs with
  | nil => intro acc _; simp
  | cons x xs ih =>
    intro acc h
    have hx : x ∉ acc := by
      rw [List.nodup_append] at h
      intro hmem
      exact h.2.2 hmem (by simp)
    have h2 : ((acc ++ [x]) ++ xs).Nodup := by simpa [List.append_assoc] using h
    simp only [List.foldl_cons, if_neg hx]
    rw [ih (acc ++ [x]) h2]
    simp

/-- Building a Python set from distinct elements keeps them all, in order. -/
theorem pySetOfList_eq {xs : List Value} (h : xs.Nodup) : pySetOfList xs = xs := by
  simpa [pySetOfList] using pySetOfList_aux xs [] (by simpa using h)

/-! ## Shared concrete environments for the verification instances -/

/-- A plain record class `Point` with fields `x y : int`. -/
def envPoint : Env := ⟨[("Point", .cls [("x", .int), ("y", .int)] none false false)]⟩

/-- An open (`as_child`) base class with two registered subclasses
`A {x : int}` and `B {y : str}` (the spec's polymorphism example). -/
def envPoly : Env := ⟨[
  ("Base", .cls [] none true false),
  ("A", .cls [("x", .int)] (some "Base") false false),
  ("B", .cls [("y", .str)] (some "Base") false false)]⟩

/-- An enumeration and a flag enumeration. -/
def envEnums : Env :=
  ⟨[("Color", .enm ["RED", "DARK_BLUE"]), ("Perm", .flg ["READ", "WRITE", "EXEC"])]⟩

/-! ## C5 — zone-naive date/time errors -/

/-- C5 (counterexample): the claim says serializing a zone-naive datetime
raises the engine's single structured error kind; in fact
`serialize_datetime_to_str` fails its `assert value.tzinfo is not None`
statement, raising `AssertionError` — a different exception kind than
`SerdeError`. -/
theorem c5_naive_datetime_counterexample :
    as_json envPoint 1 .datetime (.vDatetime 0 none) = .error .assertFail ∧
    Err.assertFail.isSerde = false := by
  exact ⟨rfl, rfl⟩

/-- C5 (amended): deserializing a zone-naive JSON date/time string raises
the structured `SerdeError` about the missing timezone, while serializing a
zone-naive datetime to JSON or BSON fails an `assert` (raising
`AssertionError`, not the structured error kind). -/
theorem c5_naive_datetime (env : Env) (lazy : Bool) (fuel : Nat) (stamp : Int) :
    from_json env lazy (fuel + 1) .datetime (.dtstr stamp none) =
      .error (.serde .missingTimezone) ∧
    as_json env (fuel + 1) .datetime (.vDatetime stamp none) = .error .assertFail ∧
    as_bson env (fuel + 1) .datetime (.vDatetime stamp none) = .error .assertFail := by
  exact ⟨rfl, rfl, rfl⟩

/-! ## C6 — BSON zone-naive date/time decode imputes UTC -/

/-- C6: `from_bson` accepts a zone-naive native datetime, imputing the UTC
zone onto the same wall-clock instant (`value.replace(tzinfo=timezone.utc)`),
and returns zone-aware values unchanged; neither raises. -/
theorem c6_bson_datetime_utc (env : Env) (lazy : Bool) (fuel : Nat)
    (stamp off : Int) :
    from_bson env lazy (fuel + 1) .datetime (.dtNative stamp none) =
      .ok (.vDatetime stamp (some 0)) ∧
    from_bson env lazy (fuel + 1) .datetime (.dtNative stamp (some off)) =
      .ok (.vDatetime stamp (some off)) := by
  exact ⟨rfl, rfl⟩

/-! ## C8 — container handler caching -/

/-- C8 (counterexample): the claim says the handler cache holds a distinct
handler per fully-specific generic type; in fact `_get_handler` keys the
cache by `(lazy, get_type_key(t))`, and two different fully-specific list
types have the same cache key, so the cache (a mapping) cannot hold
distinct handlers for them. -/
theorem c8_cache_key_counterexample :
    handler_cache_key false (.list .int) = handler_cache_key false (.list .str) ∧
    Ty.list Ty.int ≠ Ty.list Ty.str := by
  exact ⟨rfl, by decide⟩

/-- C8 (amended): differently parameterized containers share one normalized
cache key (hence one cached handler per container shape), and decoding a
container applies the element handler derived from its own non-normalized
element type, consulted at call time — so `list[int]` and `list[str]`
decode their elements at their own element types, never the other's. -/
theorem c8_container_handlers (env : Env) (lazy : Bool) (fuel : Nat)
    (t u : Ty) (ds : List Doc) :
    handler_cache_key lazy (.list t) = handler_cache_key lazy (.list u) ∧
    process .json env lazy (fuel + 1) (.list t) (.arr ds) =
      (ds.mapM (process .json env lazy fuel t)).map Value.vList ∧
    from_json env lazy (fuel + 2) (.list .str) (.arr [.str "a"]) =
      .ok (.vList [.vStr "a"]) ∧
    (from_json env lazy (fuel + 2) (.list .int) (.arr [.str "a"])).isOk = false := by
  refine ⟨rfl, rfl, rfl, rfl⟩

/-! ## C7 — handlers mutate the input document -/

/-- C7 (counterexample): the claim says a deserialization handler leaves
the input document unchanged; in fact `FieldwiseClassHandler.__call__` pops
every declared field (`raw.pop(doc_name)`), so a successful call on
`{"x": 1}` leaves the document empty — its key set changed (`from_json`'s
docstring itself warns the document may be modified in place). -/
theorem c7_handler_mutation_counterexample :
    decodeFieldsWith (process .json envPoint false 4) .json
        [("x", .int)] [(Doc.str "x", Doc.int 1)] = .ok ([("x", .vInt 1)], []) ∧
    fieldwise_call (process .json envPoint false 4) .json "P1"
        [("x", .int)] (.obj [(Doc.str "x", Doc.int 1)]) =
      .ok (.vRecord "P1" [("x", .vInt 1)]) ∧
    ([] : List (Doc × Doc)) ≠ [(Doc.str "x", Doc.int 1)] := by
  refine ⟨rfl, rfl, by simp⟩

/-- C7 (amended): handlers are deterministic and raise only via exceptions,
but they do mutate the input document: the eager fieldwise handler pops
each consumed wire key, the document only ever shrinks (the state after the
field loop is a sublist of the input), and a successful call leaves the
document with no keys at all. -/
theorem c7_document_consumed (dec : Ty → Doc → Except Err Value) (fmt : Fmt)
    (cls : String) (fields : List (String × Ty)) (kvs : List (Doc × Doc)) :
    (∀ v, fieldwise_call dec fmt cls fields (.obj kvs) = .ok v →
      ∃ attrs, decodeFieldsWith dec fmt fields kvs = .ok (attrs, []) ∧
        v = .vRecord cls attrs) ∧
    (∀ attrs rest, decodeFieldsWith dec fmt fields kvs = .ok (attrs, rest) →
      rest.Sublist kvs) := by
  constructor
  · intro v h
    simp only [fieldwise_call] at h
    split at h
    · cases h
    · rename_i attrs rest hd
      split at h
      · rename_i hrest
        cases h with
        | refl => exact ⟨attrs, by rw [hd, List.isEmpty_iff.mp hrest], rfl⟩
      · cases h
  · intro attrs rest h
    induction fields generalizing kvs attrs rest with
    | nil =>
      simp only [decodeFieldsWith] at h
      cases h with
      | refl => exact List.Sublist.refl _
    | cons f fields ih =>
      obtain ⟨py, fty⟩ := f
      simp only [decodeFieldsWith] at h
      split at h
      · cases h
      · rename_i rawVal raw' hpop
        split at h
        · cases h
        · split at h
          · cases h
          · rename_i hrec
            cases h with
            | refl => exact (ih raw' _ _ hrec).trans (popStrKey_sublist hpop)

/-- C7 (witness): the amended theorem applied to the concrete one-field
document of the counterexample. -/
theorem c7_document_consumed_witness :
    ∃ attrs, decodeFieldsWith (process .json envPoint false 4) .json
        [("x", .int)] [(Doc.str "x", Doc.int 1)] = .ok (attrs, []) ∧
      Value.vRecord "P1" [("x", .vInt 1)] = .vRecord "P1" attrs :=
  (c7_document_consumed (process .json envPoint false 4) .json "P1"
      [("x", .int)] [(Doc.str "x", Doc.int 1)]).1
    (.vRecord "P1" [("x", .vInt 1)]) rfl

/-! ## C2 — eager strictness (missing and superfluous fields) -/

/-- Removal of one wire key from a document (`del doc[key]`), used to state
the spec's strictness property. -/
def eraseStrKey (k : String) (kvs : List (Doc × Doc)) : List (Doc × Doc) :=
  match popStrKey k kvs with
  | none => kvs
  | some (_, rest) => rest

theorem popStrKey_cons_self {k : String} {v : Doc} {D : List (Doc × Doc)} :
    popStrKey k ((Doc.str k, v) :: D) = some (v, D) := by
  simp [popStrKey]

theorem popStrKey_cons_ne {k : String} {k' v : Doc} {D : List (Doc × Doc)}
    (h : k' ≠ Doc.str k) :
    popStrKey k ((k', v) :: D) =
      (popStrKey k D).map (fun p => (p.1, (k', v) :: p.2)) := by
  simp only [popStrKey, if_neg h]
  cases hrec : popStrKey k D with
  | none => simp
  | some pr => obtain ⟨a, b⟩ := pr; simp

theorem eraseStrKey_cons_self {w : String} {v : Doc} {D : List (Doc × Doc)} :
    eraseStrKey w ((Doc.str w, v) :: D) = D := by
  simp [eraseStrKey, popStrKey]

theorem eraseStrKey_cons_ne {w : String} {k' v : Doc} {D : List (Doc × Doc)}
    (h : k' ≠ Doc.str w) :
    eraseStrKey w ((k', v) :: D) = (k', v) :: eraseStrKey w D := by
  simp only [eraseStrKey, popStrKey_cons_ne h]
  cases hrec : popStrKey w D with
  | none => simp
  | some pr => obtain ⟨a, b⟩ := pr; simp

theorem popStrKey_append_left {k : String} :
    ∀ {D : List (Doc × Doc)} (E : List (Doc × Doc)) {v : Doc} {rest : List (Doc × Doc)},
      popStrKey k D = some (v, rest) → popStrKey k (D ++ E) = some (v, rest ++ E) := by
  intro D
  induction D with
  | nil => intro E v rest h; simp [popStrKey] at h
  | cons p D ih =>
    intro E v rest h
    obtain ⟨k', v'⟩ := p
    by_cases hk : k' = Doc.str k
    · subst hk
      rw [popStrKey_cons_self] at h
      cases h with
      | refl => simpa [List.cons_append] using popStrKey_cons_self
    · rw [popStrKey_cons_ne hk] at h
      cases hrec : popStrKey k D with
      | none => rw [hrec] at h; cases h
      | some pr =>
        obtain ⟨v'', rest''⟩ := pr
        rw [hrec] at h
        cases h with
        | refl =>
          rw [List.cons_append, popStrKey_cons_ne hk, ih E hrec]
          simp

theorem popStrKey_erase_comm {w k : String} (hne : w ≠ k) :
    ∀ {D : List (Doc × Doc)},
      popStrKey k (eraseStrKey w D) =
        (popStrKey k D).map (fun p => (p.1, eraseStrKey w p.2)) := by
  intro D
  induction D with
  | nil => simp [popStrKey, eraseStrKey]
  | cons p D ih =>
    obtain ⟨k', v'⟩ := p
    by_cases hw : k' = Doc.str w
    · subst hw
      have hkk : (Doc.str w) ≠ Doc.str k := by simp [hne]
      rw [eraseStrKey_cons_self, popStrKey_cons_ne hkk]
      cases hk : popStrKey k D with
      | none => simp
      | some pr =>
        obtain ⟨v'', rest''⟩ := pr
        simp [eraseStrKey_cons_self]
    · rw [eraseStrKey_cons_ne hw]
      by_cases hk : k' = Doc.str k
      · subst hk
        rw [popStrKey_cons_self, popStrKey_cons_self]
        simp [eraseStrKey_cons_ne hw]
      · rw [popStrKey_cons_ne hk, popStrKey_cons_ne hk, ih]
        cases hrec : popStrKey k D with
        | none => simp
        | some pr =>
          obtain ⟨a, b⟩ := pr
          simp [eraseStrKey_cons_ne hw]

/-- After a successful field pass leaving `rest`, the input document's keys
are the declared wire keys plus `rest`'s keys (as a multiset). -/
theorem decodeFields_keys_perm {dec : Ty → Doc → Except Err Value} {fmt : Fmt} :
    ∀ {fields : List (String × Ty)} {D : List (Doc × Doc)}
      {attrs : List (String × Value)} {rest : List (Doc × Doc)},
      decodeFieldsWith dec fmt fields D = .ok (attrs, rest) →
      (D.map Prod.fst).Perm
        ((fields.map fun f => Doc.str (wireName fmt f.1)) ++ rest.map Prod.fst) := by
  intro fields
  induction fields with
  | nil =>
    intro D attrs rest h
    simp only [decodeFieldsWith] at h
    cases h with
    | refl => simp
  | cons f fields ih =>
    intro D attrs rest h
    obtain ⟨py, fty⟩ := f
    simp only [decodeFieldsWith] at h
    split at h
    · cases h
    · rename_i rawVal raw' hpop
      split at h
      · cases h
      · split at h
        · cases h
        · rename_i hrec
          cases h with
          | refl =>
            obtain ⟨l1, l2, h1, h2, _⟩ := popStrKey_split hpop
            subst h1 h2
            simp only [List.map_append, List.map_cons, List.cons_append]
            refine List.Perm.trans List.perm_middle ?_
            refine List.Perm.cons _ ?_
            simpa using ih hrec

/-- Removing one declared wire key from a document that decodes cleanly
makes the field pass fail with exactly that missing-field error. -/
theorem decodeFields_missing {dec : Ty → Doc → Except Err Value} {fmt : Fmt} :
    ∀ {fields : List (String × Ty)} {D : List (Doc × Doc)}
      {attrs : List (String × Value)} {w : String},
      decodeFieldsWith dec fmt fields D = .ok (attrs, []) →
      (fields.map fun f => wireName fmt f.1).Nodup →
      w ∈ fields.map (fun f => wireName fmt f.1) →
      decodeFieldsWith dec fmt fields (eraseStrKey w D) =
        .error (.serde (.missingField w)) := by
  intro fields
  induction fields with
  | nil => intro D attrs w _ _ hw; simp at hw
  | cons f fields ih =>
    intro D attrs w hok hnd hw
    obtain ⟨py, fty⟩ := f
    simp only [decodeFieldsWith] at hok
    split at hok
    · cases hok
    · rename_i rawVal raw' hpop
      split at hok
      · cases hok
      · rename_i v0 hdec
        split at hok
        · cases hok
        · rename_i hrec
          cases hok with
          | refl =>
            simp only [List.map_cons, List.mem_cons] at hw
            simp only [List.map_cons, List.nodup_cons] at hnd
            rcases hw with hw | hw
            · have herase : eraseStrKey w D = raw' := by
                simp [eraseStrKey, hw, hpop]
              have hkeys := decodeFields_keys_perm hrec
              simp only [List.map_nil, List.append_nil] at hkeys
              have hnotin : Doc.str w ∉ raw'.map Prod.fst := by
                intro hmem
                have hm2 := hkeys.mem_iff.mp hmem
                simp only [List.mem_map] at hm2
                obtain ⟨f, hf, hfe⟩ := hm2
                have hfw : wireName fmt f.1 = w := Doc.str.inj hfe
                rw [hw] at hfw
                exact hnd.1 (hfw ▸ List.mem_map_of_mem (fun f => wireName fmt f.1) hf)
              rw [herase]
              simp only [decodeFieldsWith]
              rw [← hw] at hpop ⊢
              simp only [popStrKey_none_iff.mpr hnotin]
            · have hne : w ≠ wireName fmt py := by
                intro he
                exact hnd.1 (he ▸ hw)
              simp only [decodeFieldsWith]
              simp [popStrKey_erase_comm hne, hpop, hdec, ih hrec hnd.2 hw]

/-- Appending one undeclared key to a document that decodes cleanly makes
the fieldwise pass succeed but leave exactly that key unconsumed. -/
theorem decodeFields_superfluous {dec : Ty → Doc → Except Err Value} {fmt : Fmt} :
    ∀ {fields : List (String × Ty)} {D : List (Doc × Doc)}
      {attrs : List (String × Value)} {k : String} {extra : Doc},
      decodeFieldsWith dec fmt fields D = .ok (attrs, []) →
      decodeFieldsWith dec fmt fields (D ++ [(Doc.str k, extra)]) =
        .ok (attrs, [(Doc.str k, extra)]) := by
  intro fields
  induction fields with
  | nil =>
    intro D attrs k extra h
    simp only [decodeFieldsWith] at h ⊢
    cases h with
    | refl => simp
  | cons f fields ih =>
    intro D attrs k extra h
    obtain ⟨py, fty⟩ := f
    simp only [decodeFieldsWith] at h ⊢
    split at h
    · cases h
    · rename_i rawVal raw' hpop
      split at h
      · cases h
      · rename_i v0 hdec
        split at h
        · cases h
        · rename_i hrec
          cases h with
          | refl =>
            simp only [popStrKey_append_left [(Doc.str k, extra)] hpop, hdec,
              ih hrec]

/-- C2: for a record type decoded eagerly, given a document `D` on which
the fieldwise handler succeeds: (a) the call returns the record and raises
neither error; (b) `D`'s keys are exactly the declared wire keys; (c)
removing any declared wire key makes the decode raise the structured
missing-field error naming it; (d) adding any undeclared key makes the
decode raise the structured superfluous-fields error naming it.  The final
conjunct grounds `fieldwise_call` in `from_json(..., lazy=false)`: the
eager deserializer's handler for a plain record class is exactly this
fieldwise handler. -/
theorem c2_strictness (env : Env) (dec : Ty → Doc → Except Err Value)
    (fmt : Fmt) (c : String) (fields : List (String × Ty))
    (parent : Option String) (marked hasG : Bool)
    (D : List (Doc × Doc)) (attrs : List (String × Value))
    (w k : String) (extra : Doc) (fuel : Nat)
    (hok : decodeFieldsWith dec fmt fields D = .ok (attrs, []))
    (hnd : (fields.map fun f => wireName fmt f.1).Nodup)
    (hw : w ∈ fields.map fun f => wireName fmt f.1)
    (hk : k ∉ fields.map fun f => wireName fmt f.1)
    (hcls : lookupDef env c = some (.cls fields parent marked hasG))
    (hnc : should_serialize_as_child env c = false) :
    fieldwise_call dec fmt c fields (.obj D) = .ok (.vRecord c attrs) ∧
    (D.map Prod.fst).Perm (fields.map fun f => Doc.str (wireName fmt f.1)) ∧
    fieldwise_call dec fmt c fields (.obj (eraseStrKey w D)) =
      .error (.serde (.missingField w)) ∧
    fieldwise_call dec fmt c fields (.obj (D ++ [(Doc.str k, extra)])) =
      .error (.serde (.superfluousFields [Doc.str k])) ∧
    process fmt env false (fuel + 1) (.named c) (.obj D) =
      fieldwise_call (process fmt env false fuel) fmt c fields (.obj D) := by
  refine ⟨?_, ?_, ?_, ?_, ?_⟩
  · simp [fieldwise_call, hok]
  · simpa using decodeFields_keys_perm hok
  · simp [fieldwise_call, decodeFields_missing hok hnd hw]
  · have hs : decodeFieldsWith dec fmt fields (D ++ [(Doc.str k, extra)]) =
        .ok (attrs, [(Doc.str k, extra)]) := decodeFields_superfluous hok
    simp [fieldwise_call, hs, List.isEmpty_iff]
  · cases fmt <;>
      simp [process, handle_class, hcls, hnc, fieldwise_handler, passthroughTys]

/-- C2 (witness): the strictness theorem at the concrete `Point` document
`{"x": 1, "y": 2}` with `y` removed and `z` added. -/
theorem c2_strictness_witness :
    fieldwise_call (process .json envPoint false 4) .json "Point"
        [("x", .int), ("y", .int)]
        (.obj (eraseStrKey "y" [(Doc.str "x", Doc.int 1), (Doc.str "y", Doc.int 2)])) =
      .error (.serde (.missingField "y")) ∧
    fieldwise_call (process .json envPoint false 4) .json "Point"
        [("x", .int), ("y", .int)]
        (.obj ([(Doc.str "x", Doc.int 1), (Doc.str "y", Doc.int 2)] ++
          [(Doc.str "z", Doc.int 3)])) =
      .error (.serde (.superfluousFields [Doc.str "z"])) := by
  have h := c2_strictness envPoint (process .json envPoint false 4) .json "Point"
    [("x", .int), ("y", .int)] none false false
    [(Doc.str "x", Doc.int 1), (Doc.str "y", Doc.int 2)]
    [("x", .vInt 1), ("y", .vInt 2)] "y" "z" (Doc.int 3) 4
    (by decide) (by decide) (by decide) (by decide) (by decide) (by decide)
  exact ⟨h.2.2.1, h.2.2.2.1⟩

/-! ## C10 — lazy decoding is not strict about extra keys -/

theorem filter_after_pop {w : String} {kvs raw' : List (Doc × Doc)} {v : Doc}
    {L : List Doc} (hpop : popStrKey w kvs = some (v, raw'))
    (hnd : (kvs.map Prod.fst).Nodup) :
    raw'.filter (fun p => decide (p.1 ∉ L)) =
      kvs.filter (fun p => decide (p.1 ∉ (Doc.str w :: L))) ∧
    (raw'.map Prod.fst).Nodup := by
  obtain ⟨l1, l2, h1, h2, _⟩ := popStrKey_split hpop
  subst h1 h2
  have hnd' : ((l1 ++ l2).map Prod.fst).Nodup := by
    refine List.Nodup.sublist (List.Sublist.map Prod.fst ?_) hnd
    exact List.Sublist.append (List.Sublist.refl l1) (List.sublist_cons_self _ l2)
  have hw1 : Doc.str w ∉ l1.map Prod.fst := by
    simp only [List.map_append, List.map_cons] at hnd
    have := (List.nodup_append.mp hnd).2.2
    intro hmem
    exact this hmem (by simp)
  have hw2 : Doc.str w ∉ l2.map Prod.fst := by
    simp only [List.map_append, List.map_cons] at hnd
    have := (List.nodup_append.mp hnd).2.1
    rw [List.nodup_cons] at this
    exact this.1
  refine ⟨?_, hnd'⟩
  have congr1 : ∀ l : List (Doc × Doc), Doc.str w ∉ l.map Prod.fst →
      l.filter (fun p => decide (p.1 ∉ (Doc.str w :: L))) =
        l.filter (fun p => decide (p.1 ∉ L)) := by
    intro l hl
    apply List.filter_congr
    intro p hp
    have : p.1 ≠ Doc.str w := by
      intro he
      exact hl (he ▸ List.mem_map_of_mem Prod.fst hp)
    simp [this]
  simp only [List.filter_append, List.filter_cons]
  rw [congr1 l1 hw1, congr1 l2 hw2]
  simp

theorem readFields_remaining {fmt : Fmt} {env : Env} {fuel : Nat} {c : String} :
    ∀ {names : List String} {kvs : List (Doc × Doc)}
      {vs : List (String × Value)} {rem : List (Doc × Doc)},
      readFields fmt env fuel c names kvs = .ok (vs, rem) →
      (kvs.map Prod.fst).Nodup →
      rem = kvs.filter
        (fun p => decide (p.1 ∉ names.map fun n => Doc.str (wireName fmt n))) := by
  intro names
  induction names with
  | nil =>
    intro kvs vs rem h hnd
    simp only [readFields] at h
    cases h with
    | refl => simp [List.filter_eq_self]
  | cons name names ih =>
    intro kvs vs rem h hnd
    simp only [readFields] at h
    cases hla : lazy_getattr fmt env fuel c kvs name with
    | error e => simp only [hla] at h; cases h
    | ok pr =>
      obtain ⟨v, remaining'⟩ := pr
      simp only [hla] at h
      split at h
      · cases h
      · rename_i hrec
        cases h with
        | refl =>
          have hpop : ∃ rawVal, popStrKey (wireName fmt name) kvs =
              some (rawVal, remaining') := by
            simp only [lazy_getattr] at hla
            split at hla
            · split at hla
              · cases hla
              · split at hla
                · cases hla
                · rename_i rawVal rem' hpop'
                  split at hla
                  · cases hla
                  · cases hla with
                    | refl => exact ⟨rawVal, hpop'⟩
            · cases hla
          obtain ⟨rawVal, hpop⟩ := hpop
          obtain ⟨hfil, hnd'⟩ := filter_after_pop hpop hnd
          rw [ih hrec hnd', hfil]
          simp

/-- C10: for a record class that qualifies for lazy mode (no custom
`__getattr__`), lazy `from_json` never raises the superfluous-fields error:
the decode itself just wraps the whole document into the shell (whatever
extra keys it has), no input can make the lazy record handler report
superfluous fields, and after every declared field has been read once the
shell's remaining-fields map still silently holds exactly the keys matching
no read field — unlike the eager handler, which raises the structured
superfluous error whenever keys are left unconsumed. -/
theorem c10_lazy_not_strict (fmt : Fmt) (env : Env) (c : String)
    (fields : List (String × Ty)) (parent : Option String) (marked : Bool)
    (fuel : Nat) (kvs : List (Doc × Doc)) (dec : Ty → Doc → Except Err Value)
    (hcls : lookupDef env c = some (.cls fields parent marked false))
    (hnc : should_serialize_as_child env c = false) :
    process fmt env true (fuel + 1) (.named c) (.obj kvs) = .ok (.vLazy c kvs) ∧
    (∀ doc msgs, process fmt env true (fuel + 1) (.named c) doc ≠
      .error (.serde (.superfluousFields msgs))) ∧
    (∀ vs rem, readFields fmt env fuel c (fields.map Prod.fst) kvs = .ok (vs, rem) →
      (kvs.map Prod.fst).Nodup →
      rem = kvs.filter (fun p =>
        decide (p.1 ∉ (fields.map Prod.fst).map fun n => Doc.str (wireName fmt n)))) ∧
    (∀ attrs rest, decodeFieldsWith dec fmt fields kvs = .ok (attrs, rest) →
      rest ≠ [] →
      fieldwise_call dec fmt c fields (.obj kvs) =
        .error (.serde (.superfluousFields (rest.map Prod.fst)))) := by
  have hlazy : can_create_lazy_instance env c = true := by
    simp [can_create_lazy_instance, hcls]
  refine ⟨?_, ?_, ?_, ?_⟩
  · cases fmt <;>
      simp [process, handle_class, hcls, hnc, fieldwise_handler, hlazy, passthroughTys]
  · intro doc msgs
    cases fmt <;> cases doc <;>
      simp [process, handle_class, hcls, hnc, fieldwise_handler, hlazy, passthroughTys]
  · intro vs rem h hnd
    exact readFields_remaining h hnd
  · intro attrs rest h hne
    simp [fieldwise_call, h, List.isEmpty_iff, hne]

/-- C10 (witness): a `Point` document with the extra key `zz` decodes
lazily to a shell keeping `zz`; after reading both declared fields the
remaining map holds exactly `zz`. -/
theorem c10_lazy_not_strict_witness :
    process .json envPoint true 5 (.named "Point")
        (.obj [(Doc.str "x", Doc.int 1), (Doc.str "y", Doc.int 2),
          (Doc.str "zz", Doc.int 9)]) =
      .ok (.vLazy "Point" [(Doc.str "x", Doc.int 1), (Doc.str "y", Doc.int 2),
        (Doc.str "zz", Doc.int 9)]) ∧
    [(Doc.str "zz", Doc.int 9)] =
      ([(Doc.str "x", Doc.int 1), (Doc.str "y", Doc.int 2),
        (Doc.str "zz", Doc.int 9)] : List (Doc × Doc)).filter (fun p =>
        decide (p.1 ∉ ([("x", Ty.int), ("y", Ty.int)].map Prod.fst).map
          fun n => Doc.str (wireName .json n))) := by
  have h := c10_lazy_not_strict .json envPoint "Point"
    [("x", .int), ("y", .int)] none false 4
    [(Doc.str "x", Doc.int 1), (Doc.str "y", Doc.int 2), (Doc.str "zz", Doc.int 9)]
    (process .json envPoint false 4) (by decide) (by decide)
  refine ⟨h.1, ?_⟩
  have h3 := h.2.2.1 [("x", .vInt 1), ("y", .vInt 2)] [(Doc.str "zz", Doc.int 9)]
    (by decide) (by decide)
  exact h3

/-! ## C9 — MongoDB schema: required fields and optional-field null branch -/

/-- The `required` list of an object schema (empty when the key is absent —
the generator omits it for field-less classes, as MongoDB requires a
non-empty `required`). -/
def requiredList (S : Doc) : List Doc :=
  match S with
  | .obj kvs =>
    match lookupStrKey "required" kvs with
    | some (.arr l) => l
    | _ => []
  | _ => []

/-- The `properties` map of an object schema. -/
def propsOf (S : Doc) : List (Doc × Doc) :=
  match S with
  | .obj kvs =>
    match lookupStrKey "properties" kvs with
    | some (.obj props) => props
    | _ => []
  | _ => []

/-- Whether a schema node directly carries the `"null"` tag in its
`type`/`bsonType` (singleton or list form). -/
def hasNullTag (S : Doc) : Bool :=
  match S with
  | .obj kvs =>
    (match lookupStrKey "type" kvs with
     | some (.arr l) => Doc.str "null" ∈ l
     | some (.str s) => s == "null"
     | _ => false) ||
    (match lookupStrKey "bsonType" kvs with
     | some (.arr l) => Doc.str "null" ∈ l
     | some (.str s) => s == "null"
     | _ => false)
  | _ => false

/-- Whether a schema node expresses the absence branch: a `null` tag at the
top level or in one of its `anyOf` alternatives. -/
def hasNullBranch (S : Doc) : Bool :=
  hasNullTag S ||
  (match S with
   | .obj kvs =>
     match lookupStrKey "anyOf" kvs with
     | some (.arr l) => l.any hasNullTag
     | _ => false
   | _ => false)

theorem hasNull_makeSchemaUnion (s : Doc) :
    hasNullBranch (makeSchemaUnion [s, .obj [(Doc.str "type", Doc.str "null")]]) =
      true := by
  have hnull : unionClassify [Doc.obj [(Doc.str "type", Doc.str "null")]] =
      ([Doc.str "null"], [], []) := by
    simp [unionClassify, lookupStrKey]
  match s with
  | .obj [(k, v)] =>
    by_cases hk : k = Doc.str "type"
    · subst hk
      match v with
      | .arr l =>
        simp [makeSchemaUnion, unionClassify, hnull, hasNullBranch, hasNullTag,
          lookupStrKey]
      | .null | .bool _ | .int _ | .float _ | .str _ | .obj _ | .b64str _
      | .dtstr _ _ | .oidstr _ | .pathstr _ | .bytesNative _ | .dtNative _ _
      | .oidNative _ =>
        simp [makeSchemaUnion, unionClassify, hnull, hasNullBranch, hasNullTag,
          lookupStrKey]
    · by_cases hb : k = Doc.str "bsonType"
      · subst hb
        match v with
        | .arr l =>
          by_cases hl : l = [] <;>
            simp [makeSchemaUnion, unionClassify, hnull, hasNullBranch, hasNullTag,
              lookupStrKey, hl]
        | .null | .bool _ | .int _ | .float _ | .str _ | .obj _ | .b64str _
        | .dtstr _ _ | .oidstr _ | .pathstr _ | .bytesNative _ | .dtNative _ _
        | .oidNative _ =>
          simp [makeSchemaUnion, unionClassify, hnull, hasNullBranch, hasNullTag,
            lookupStrKey]
      · simp [makeSchemaUnion, unionClassify, hnull, hk, hb, hasNullBranch,
          hasNullTag, lookupStrKey]
  | .obj [] =>
    simp [makeSchemaUnion, unionClassify, hnull, hasNullBranch, hasNullTag,
      lookupStrKey]
  | .obj (p1 :: p2 :: rest) =>
    simp [makeSchemaUnion, unionClassify, hnull, hasNullBranch, hasNullTag,
      lookupStrKey]
  | .null | .bool _ | .int _ | .float _ | .str _ | .arr _ | .b64str _
  | .dtstr _ _ | .oidstr _ | .pathstr _ | .bytesNative _ | .dtNative _ _
  | .oidNative _ =>
    simp [makeSchemaUnion, unionClassify, hnull, hasNullBranch, hasNullTag,
      lookupStrKey]

/-- The schema of any `Optional` type admits null. -/
theorem optional_schema_hasNull {env : Env} {fuel : Nat} {t : Ty} {S : Doc}
    (h : as_mongodb_schema env fuel (.optional t) = .ok S) :
    hasNullBranch S = true := by
  match fuel with
  | 0 => cases h
  | fuel + 1 =>
    simp only [as_mongodb_schema] at h
    split at h
    · cases h
    · rename_i s hs
      cases h with
      | refl => exact hasNull_makeSchemaUnion s

/-- Alignment of the schema generator's field loop. -/
theorem class_schema_fields_shape {sch : Ty → Except Err Doc} :
    ∀ {fields : List (String × Ty)} {props : List (Doc × Doc)},
      class_schema_fields sch fields = .ok props →
      props.map Prod.fst = fields.map (fun f => Doc.str (schemaWire f.1)) ∧
      ∀ f ∈ fields, ∃ s, (Doc.str (schemaWire f.1), s) ∈ props ∧ sch f.2 = .ok s := by
  intro fields
  induction fields with
  | nil =>
    intro props h
    simp only [class_schema_fields] at h
    cases h with
    | refl => exact ⟨rfl, by simp⟩
  | cons f fields ih =>
    intro props h
    obtain ⟨py, fty⟩ := f
    simp only [class_schema_fields] at h
    split at h
    · cases h
    · rename_i s hs
      split at h
      · cases h
      · rename_i ds hds
        cases h with
        | refl =>
          obtain ⟨ih1, ih2⟩ := ih hds
          refine ⟨by simp [ih1], ?_⟩
          intro g hg
          rcases List.mem_cons.mp hg with hg | hg
          · exact ⟨s, by simp [hg], by rw [hg]; exact hs⟩
          · obtain ⟨s', hs1, hs2⟩ := ih2 g hg
            exact ⟨s', List.mem_cons_of_mem _ hs1, hs2⟩

theorem lookupStrKey_of_mem_nodup {k : String} {v : Doc} :
    ∀ {kvs : List (Doc × Doc)}, (Doc.str k, v) ∈ kvs →
      (kvs.map Prod.fst).Nodup → lookupStrKey k kvs = some v := by
  intro kvs
  induction kvs with
  | nil => intro h; simp at h
  | cons p kvs ih =>
    intro hmem hnd
    obtain ⟨k', v'⟩ := p
    simp only [List.map_cons, List.nodup_cons] at hnd
    rcases List.mem_cons.mp hmem with he | hm
    · cases he
      simp [lookupStrKey]
    · have hk : k' ≠ Doc.str k := by
        intro he
        subst he
        exact hnd.1 (List.mem_map_of_mem Prod.fst hm)
      simp only [lookupStrKey, if_neg hk]
      exact ih hm hnd.2

/-- C9: the generated class schema is an object shape whose `properties`
map lists every field's wire name with its nested schema, whose `required`
list (taken as empty when the generator omits the key) is exactly the list
of all field wire names — optional fields included — and every optional
field's property schema carries an explicit null branch rather than being
left out of `required`. -/
theorem c9_schema_required (env : Env) (fuel : Nat) (fields : List (String × Ty))
    (S : Doc) (props : List (Doc × Doc))
    (hS : class_schema_ignore_as_child (as_mongodb_schema env fuel) fields = .ok S)
    (hprops : class_schema_fields (as_mongodb_schema env fuel) fields = .ok props)
    (hnd : (fields.map fun f => schemaWire f.1).Nodup) :
    requiredList S = fields.map (fun f => Doc.str (schemaWire f.1)) ∧
    propsOf S = props ∧
    props.map Prod.fst = fields.map (fun f => Doc.str (schemaWire f.1)) ∧
    (∀ f ∈ fields, ∃ s, lookupStrKey (schemaWire f.1) props = some s ∧
      as_mongodb_schema env fuel f.2 = .ok s) ∧
    (∀ py t' s, (py, Ty.optional t') ∈ fields →
      lookupStrKey (schemaWire py) props = some s → hasNullBranch s = true) := by
  obtain ⟨hshape, hmem⟩ := class_schema_fields_shape hprops
  have hndp : (props.map Prod.fst).Nodup := by
    rw [hshape]
    have he : (fields.map fun f => Doc.str (schemaWire f.1)) =
        (fields.map fun f => schemaWire f.1).map Doc.str := by simp
    rw [he]
    exact List.Nodup.map (fun a b h => Doc.str.inj h) hnd
  have hdict : pyDictOfList props = props := pyDictOfList_eq hndp
  have hSv : S = .obj ([(Doc.str "type", Doc.str "object"),
      (Doc.str "properties", Doc.obj props),
      (Doc.str "additionalProperties", Doc.bool false)] ++
      (if (fields.map fun f => Doc.str (schemaWire f.1)).isEmpty then []
       else [(Doc.str "required",
         Doc.arr (fields.map fun f => Doc.str (schemaWire f.1)))])) := by
    simp only [class_schema_ignore_as_child, hprops, hdict] at hS
    cases hS with
    | refl =>
      by_cases he : (fields.map fun f => Doc.str (schemaWire f.1)).isEmpty
      · simp [he]
      · simp [he]
  have hlook : ∀ f ∈ fields, ∃ s, lookupStrKey (schemaWire f.1) props = some s ∧
      as_mongodb_schema env fuel f.2 = .ok s := by
    intro f hf
    obtain ⟨s, hs1, hs2⟩ := hmem f hf
    exact ⟨s, lookupStrKey_of_mem_nodup hs1 hndp, hs2⟩
  refine ⟨?_, ?_, hshape, hlook, ?_⟩
  · rw [hSv]
    by_cases he : (fields.map fun f => Doc.str (schemaWire f.1)).isEmpty
    · simp only [if_pos he, List.append_nil]
      rw [List.isEmpty_iff.mp he]
      simp [requiredList, lookupStrKey]
    · simp only [if_neg he]
      simp [requiredList, lookupStrKey]
  · rw [hSv]
    by_cases he : (fields.map fun f => Doc.str (schemaWire f.1)).isEmpty
    · simp [if_pos he, propsOf, lookupStrKey]
    · simp [if_neg he, propsOf, lookupStrKey]
  · intro py t' s hf hl
    obtain ⟨s', hs1, hs2⟩ := hlook (py, .optional t') hf
    rw [hl] at hs1
    cases hs1
    exact optional_schema_hasNull hs2

/-- C9 (witness): the schema of a record with an optional field, checked
concretely: `required` lists both fields and the optional field's schema
carries the null branch. -/
theorem c9_schema_required_witness :
    requiredList (Doc.obj [(Doc.str "type", Doc.str "object"),
      (Doc.str "properties", Doc.obj
        [(Doc.str "x", Doc.obj [(Doc.str "bsonType",
            Doc.arr [Doc.str "int", Doc.str "long"])]),
         (Doc.str "opt", Doc.obj [(Doc.str "bsonType",
            Doc.arr [Doc.str "null", Doc.str "int", Doc.str "long"])])]),
      (Doc.str "additionalProperties", Doc.bool false),
      (Doc.str "required", Doc.arr [Doc.str "x", Doc.str "opt"])]) =
      [Doc.str "x", Doc.str "opt"] ∧
    ∀ s, lookupStrKey "opt"
        [(Doc.str "x", Doc.obj [(Doc.str "bsonType",
            Doc.arr [Doc.str "int", Doc.str "long"])]),
         (Doc.str "opt", Doc.obj [(Doc.str "bsonType",
            Doc.arr [Doc.str "null", Doc.str "int", Doc.str "long"])])] = some s →
      hasNullBranch s = true := by
  have h := c9_schema_required envPoint 3 [("x", .int), ("opt", .optional .int)]
    (Doc.obj [(Doc.str "type", Doc.str "object"),
      (Doc.str "properties", Doc.obj
        [(Doc.str "x", Doc.obj [(Doc.str "bsonType",
            Doc.arr [Doc.str "int", Doc.str "long"])]),
         (Doc.str "opt", Doc.obj [(Doc.str "bsonType",
            Doc.arr [Doc.str "null", Doc.str "int", Doc.str "long"])])]),
      (Doc.str "additionalProperties", Doc.bool false),
      (Doc.str "required", Doc.arr [Doc.str "x", Doc.str "opt"])])
    [(Doc.str "x", Doc.obj [(Doc.str "bsonType",
        Doc.arr [Doc.str "int", Doc.str "long"])]),
     (Doc.str "opt", Doc.obj [(Doc.str "bsonType",
        Doc.arr [Doc.str "null", Doc.str "int", Doc.str "long"])])]
    (by decide) (by decide) (by decide)
  refine ⟨h.1, ?_⟩
  intro s hs
  exact h.2.2.2.2 "opt" .int s (by decide) hs

/-! ## C3 — polymorphic (as_child) encode/decode -/

/-- Wire keys produced by the serialization field loop: the camelCase wire
names of the class's fields, in order. -/
theorem serializeFields_keys {ser : Ty → Value → Except Err Doc}
    {attrs : List (String × Value)} :
    ∀ {fields : List (String × Ty)} {ps : List (Doc × Doc)},
      serializeFieldsWith ser attrs fields = .ok ps →
      ps.map Prod.fst = fields.map fun f => Doc.str (all_lower_to_camel_case f.1) := by
  intro fields
  induction fields with
  | nil =>
    intro ps h
    simp only [serializeFieldsWith] at h
    cases h with
    | refl => rfl
  | cons f fields ih =>
    intro ps h
    obtain ⟨py, fty⟩ := f
    simp only [serializeFieldsWith] at h
    split at h
    · cases h
    · split at h
      · cases h
      · split at h
        · cases h
        · rename_i hds
          cases h with
          | refl => simp [ih hds]

theorem lookup_tag_map {f : String → String} :
    ∀ {subs : List String} {rc : String}, rc ∈ subs → (subs.map f).Nodup →
      (subs.map fun c => (f c, c)).lookup (f rc) = some rc := by
  intro subs
  induction subs with
  | nil => intro rc h _; simp at h
  | cons c subs ih =>
    intro rc hmem hnd
    simp only [List.map_cons, List.nodup_cons] at hnd
    rcases List.mem_cons.mp hmem with he | hm
    · subst he
      simp [List.lookup]
    · have hne : (f rc == f c) = false := by
        simp only [beq_eq_false_iff_ne, ne_eq]
        intro he
        exact hnd.1 (he ▸ List.mem_map_of_mem f hm)
      simp only [List.map_cons, List.lookup, hne]
      exact ih hm hnd.2

/-- Lookup in the `as_child` tag map finds the class whose tag was looked
up, given the hierarchy's tags are distinct. -/
theorem childByTag_lookup {env : Env} {base rc : String}
    (hmem : rc ∈ all_subclasses env base)
    (hnd : ((all_subclasses env base).map upper_camel_case_to_camel_case).Nodup) :
    (childByTag env base).lookup (upper_camel_case_to_camel_case rc) = some rc := by
  unfold childByTag
  rw [pyDictOfList_eq (by simpa [List.map_map, Function.comp] using hnd)]
  exact lookup_tag_map hmem hnd

/-- C3: for an open (`as_child`) base type with registered subclasses,
(1) encoding an instance of concrete subclass `B` through the base type's
handler yields a document consisting of `B`'s own serialized fields plus
the discriminator key `type` holding `B`'s camelCase tag, appended last;
(2) its keys are exactly `B`'s field wire names followed by `type`;
(3) decoding a document whose discriminator is `B`'s tag pops the
discriminator and delegates to `B`'s fieldwise handler on the remaining
document; (4) a successful fieldwise decode returns an instance of exactly
`B`; (5) a document without the discriminator raises the structured
missing-`type` error; (6) an unrecognized tag raises the structured
invalid-tag error. -/
theorem c3_polymorphism (env : Env) (fuel : Nat) (base B : String)
    (basefields Bfields : List (String × Ty))
    (parentBase parentB : Option String) (mBase mB hBase hB : Bool)
    (attrs : List (String × Value)) (flds : List (Doc × Doc))
    (kvs : List (Doc × Doc)) (dec : Ty → Doc → Except Err Value)
    (hbase : lookupDef env base = some (.cls basefields parentBase mBase hBase))
    (hac : should_serialize_as_child env base = true)
    (hBc : lookupDef env B = some (.cls Bfields parentB mB hB))
    (hBsub : issubclass env B base = true)
    (hmem : B ∈ all_subclasses env base)
    (hnd : ((all_subclasses env base).map upper_camel_case_to_camel_case).Nodup)
    (hser : serializeFieldsWith (common_serialize .json env fuel) attrs Bfields = .ok flds)
    (hkeys : (flds.map Prod.fst).Nodup)
    (hnotype : Doc.str "type" ∉ flds.map Prod.fst) :
    as_json env (fuel + 1) (.named base) (.vRecord B attrs) =
      .ok (.obj (flds ++
        [(Doc.str "type", Doc.str (upper_camel_case_to_camel_case B))])) ∧
    (flds ++ [(Doc.str "type", Doc.str (upper_camel_case_to_camel_case B))]).map
        Prod.fst =
      (Bfields.map fun f => Doc.str (all_lower_to_camel_case f.1)) ++
        [Doc.str "type"] ∧
    (popStrKey "type" kvs =
        some (.str (upper_camel_case_to_camel_case B), flds) →
      from_json env false (fuel + 1) (.named base) (.obj kvs) =
        fieldwise_call (process .json env false fuel) .json B Bfields (.obj flds)) ∧
    (∀ d w, fieldwise_call dec .json B Bfields d = .ok w →
      ∃ ats, w = .vRecord B ats) ∧
    (popStrKey "type" kvs = none →
      from_json env false (fuel + 1) (.named base) (.obj kvs) =
        .error (.serde .missingTypeField)) ∧
    (∀ tg rest', popStrKey "type" kvs = some (.str tg, rest') →
      (childByTag env base).lookup tg = none →
      from_json env false (fuel + 1) (.named base) (.obj kvs) =
        .error (.serde (.invalidTypeTag (.str tg)))) := by
  refine ⟨?_, ?_, ?_, ?_, ?_, ?_⟩
  · simp [as_json, common_serialize, hbase, hac, hBc, hBsub, hser, bsonIdFix,
      pyDictOfList_eq hkeys, pyDictInsert_append hnotype]
  · simp [serializeFields_keys hser]
  · intro hpop
    simp [from_json, process, passthroughTys, handle_class, hbase, hac, hpop,
      childByTag_lookup hmem hnd, hBc, fieldwise_handler]
  · intro d w h
    simp only [fieldwise_call] at h
    split at h
    · split at h
      · simp at h
      · rename_i attrs' rest' hdf
        split at h
        · exact ⟨attrs', (Except.ok.inj h).symm⟩
        · simp at h
    · simp at h
  · intro hpop
    simp [from_json, process, passthroughTys, handle_class, hbase, hac, hpop]
  · intro tg rest' hpop hlook
    simp [from_json, process, passthroughTys, handle_class, hbase, hac, hpop, hlook]

/-- C3 (witness): the spec's `A/B` example, concretely: encoding a `B`
through `Base` yields `{"y": "hi", "type": "b"}`, decoding it delegates to
`B`'s handler (yielding exactly a `B`), and the two error cases raise. -/
theorem c3_polymorphism_witness :
    as_json envPoly 5 (.named "Base") (.vRecord "B" [("y", .vStr "hi")]) =
      .ok (.obj [(Doc.str "y", Doc.str "hi"), (Doc.str "type", Doc.str "b")]) ∧
    from_json envPoly false 5 (.named "Base")
        (.obj [(Doc.str "y", Doc.str "hi"), (Doc.str "type", Doc.str "b")]) =
      fieldwise_call (process .json envPoly false 4) .json "B" [("y", .str)]
        (.obj [(Doc.str "y", Doc.str "hi")]) ∧
    from_json envPoly false 5 (.named "Base")
        (.obj [(Doc.str "y", Doc.str "hi")]) = .error (.serde .missingTypeField) := by
  have h := c3_polymorphism envPoly 4 "Base" "B" [] [("y", .str)] none (some "Base")
    true false false false [("y", .vStr "hi")] [(Doc.str "y", Doc.str "hi")]
    [(Doc.str "y", Doc.str "hi"), (Doc.str "type", Doc.str "b")]
    (process .json envPoly false 4)
    (by decide) (by decide) (by decide) (by decide) (by decide) (by decide)
    (by decide) (by decide) (by decide)
  have h2 := c3_polymorphism envPoly 4 "Base" "B" [] [("y", .str)] none (some "Base")
    true false false false [("y", .vStr "hi")] [(Doc.str "y", Doc.str "hi")]
    [(Doc.str "y", Doc.str "hi")]
    (process .json envPoly false 4)
    (by decide) (by decide) (by decide) (by decide) (by decide) (by decide)
    (by decide) (by decide) (by decide)
  exact ⟨h.1, h.2.2.1 (by decide), h2.2.2.2.2.1 (by decide)⟩

/-! ## C4 — lazy/eager equivalence (lazy_wrapper.py)

The equivalence is stated through `forceValue`: reading every field of a
lazy instance once (recursively) yields the eagerly decoded value.  Two
decidable side conditions carve out the inputs on which the comparison is
meaningful in Python: set elements and dict keys must be of *rigid* type
(scalars, enums, containers thereof — in Python those positions hold the
hashable values; class instances decode to lazy shells there and plain
`Any` documents are unhashable dicts/lists), and every class field type
must satisfy the same condition (`envKR`). -/

mutual

/-- Types whose decoding ignores the deserializer's `lazy` flag and whose
decoded values contain no lazy shells: every leaf converter, enums and flag
enums, and containers thereof.  Classes (which lazy mode replaces by
shells) and `Any` (which passes raw documents through) are excluded. -/
def rigidTy (env : Env) : Ty → Bool
  | .bool => true
  | .int => true
  | .float => true
  | .str => true
  | .bytes => true
  | .datetime => true
  | .timedelta => true
  | .objectId => true
  | .path => true
  | .lit _ => true
  | .any => false
  | .optional t => rigidTy env t
  | .list t => rigidTy env t
  | .set t => rigidTy env t
  | .tuple ts => rigidTyList env ts
  | .dict kt vt => rigidTy env kt && rigidTy env vt
  | .named c =>
    match lookupDef env c with
    | some (.enm _) => true
    | some (.flg _) => true
    | _ => false
termination_by structural t => t

/-- Elementwise `rigidTy`. -/
def rigidTyList (env : Env) : List Ty → Bool
  | [] => true
  | t :: ts => rigidTy env t && rigidTyList env ts
termination_by structural l => l

end

mutual

/-- Types at which the lazy/eager comparison is made: set elements and
dict keys must be rigid, `Any` is excluded, and class names are atomic
(their field types are covered by the environment-level `envKR`). -/
def krTy (env : Env) : Ty → Bool
  | .bool => true
  | .int => true
  | .float => true
  | .str => true
  | .bytes => true
  | .datetime => true
  | .timedelta => true
  | .objectId => true
  | .path => true
  | .lit _ => true
  | .any => false
  | .optional t => krTy env t
  | .list t => krTy env t
  | .set t => rigidTy env t
  | .tuple ts => krTyList env ts
  | .dict kt vt => rigidTy env kt && krTy env vt
  | .named _ => true
termination_by structural t => t

/-- Elementwise `krTy`. -/
def krTyList (env : Env) : List Ty → Bool
  | [] => true
  | t :: ts => krTy env t && krTyList env ts
termination_by structural l => l

end

/-- Every field type of every class in the environment admits the
lazy/eager comparison. -/
def envKR (env : Env) : Bool :=
  env.defs.all fun p =>
    match p.2 with
    | .cls fields _ _ _ => fields.all fun f => krTy env f.2
    | _ => true

theorem rigidTyList_mem {env : Env} :
    ∀ {ts : List Ty} {t : Ty}, rigidTyList env ts = true → t ∈ ts →
      rigidTy env t = true := by
  intro ts
  induction ts with
  | nil => intro t _ h; simp at h
  | cons t0 ts ih =>
    intro t h hm
    rw [rigidTyList, Bool.and_eq_true] at h
    rcases List.mem_cons.mp hm with he | hm'
    · exact he ▸ h.1
    · exact ih h.2 hm'

theorem krTyList_mem {env : Env} :
    ∀ {ts : List Ty} {t : Ty}, krTyList env ts = true → t ∈ ts →
      krTy env t = true := by
  intro ts
  induction ts with
  | nil => intro t _ h; simp at h
  | cons t0 ts ih =>
    intro t h hm
    rw [krTyList, Bool.and_eq_true] at h
    rcases List.mem_cons.mp hm with he | hm'
    · exact he ▸ h.1
    · exact ih h.2 hm'

theorem lookup_mem {α β : Type} [BEq α] [LawfulBEq α] :
    ∀ {l : List (α × β)} {k : α} {v : β}, l.lookup k = some v → (k, v) ∈ l := by
  intro l
  induction l with
  | nil => intro k v h; cases h
  | cons p l ih =>
    intro k v h
    obtain ⟨k', v'⟩ := p
    simp only [List.lookup] at h
    split at h
    · rename_i heq
      cases h
      exact List.mem_cons.mpr (Or.inl (by rw [eq_of_beq heq]))
    · exact List.mem_cons.mpr (Or.inr (ih h))

theorem fieldsLookup_of_nodup {β : Type} :
    ∀ {l : List (String × β)} {k : String} {v : β},
      (l.map Prod.fst).Nodup → (k, v) ∈ l → l.lookup k = some v := by
  intro l
  induction l with
  | nil => intro k v _ hm; simp at hm
  | cons p l ih =>
    intro k v hnd hm
    obtain ⟨k', v'⟩ := p
    simp only [List.map_cons, List.nodup_cons] at hnd
    rcases List.mem_cons.mp hm with he | hm'
    · cases he
      simp [List.lookup]
    · have hne : (k == k') = false := by
        simp only [beq_eq_false_iff_ne, ne_eq]
        intro he
        exact hnd.1 (he ▸ List.mem_map_of_mem Prod.fst hm')
      simp only [List.lookup, hne]
      exact ih hnd.2 hm'

theorem envWF_cls {env : Env} {c : String} {fields : List (String × Ty)}
    {parent : Option String} {m g : Bool}
    (hwf : envWF env = true)
    (hc : lookupDef env c = some (.cls fields parent m g)) :
    clsWF env c fields = true := by
  rw [envWF, Bool.and_eq_true, Bool.and_eq_true] at hwf
  have hmem : (c, TypeDef.cls fields parent m g) ∈ env.defs := lookup_mem hc
  have := List.all_eq_true.mp hwf.1.2 _ hmem
  simpa using this

theorem envKR_fields {env : Env} {c : String} {fields : List (String × Ty)}
    {parent : Option String} {m g : Bool}
    (hkr : envKR env = true)
    (hc : lookupDef env c = some (.cls fields parent m g)) :
    ∀ f ∈ fields, krTy env f.2 = true := by
  intro f hf
  have hmem : (c, TypeDef.cls fields parent m g) ∈ env.defs := lookup_mem hc
  have h1 := List.all_eq_true.mp hkr _ hmem
  simp only at h1
  exact List.all_eq_true.mp h1 f hf

/-! ### A small toolkit for `List.mapM` over `Except` -/

theorem mapM_nil_eq {ε α β : Type} (f : α → Except ε β) :
    ([] : List α).mapM f = .ok [] := rfl

theorem exceptLoop_eq {ε α β : Type} (f : α → Except ε β) :
    ∀ (l : List α) (acc : List β),
      List.mapM.loop f l acc =
        match l.mapM f with
        | .error e => .error e
        | .ok bs => .ok (acc.reverse ++ bs) := by
  intro l
  induction l with
  | nil =>
    intro acc
    show (Except.ok acc.reverse : Except ε (List β)) =
      match ([] : List α).mapM f with
      | Except.error e => Except.error e
      | Except.ok bs => Except.ok (acc.reverse ++ bs)
    rw [mapM_nil_eq]
    show Except.ok acc.reverse = Except.ok (acc.reverse ++ [])
    rw [List.append_nil]
  | cons a l ih =>
    intro acc
    show (match f a with
      | Except.error e => Except.error e
      | Except.ok b => List.mapM.loop f l (b :: acc)) =
      match (a :: l).mapM f with
      | Except.error e => Except.error e
      | Except.ok bs => Except.ok (acc.reverse ++ bs)
    have hra : (a :: l).mapM f = List.mapM.loop f (a :: l) [] := rfl
    rw [hra]
    show _ = (match (match f a with
      | Except.error e => Except.error e
      | Except.ok b => List.mapM.loop f l (b :: [])) with
      | Except.error e => Except.error e
      | Except.ok bs => Except.ok (acc.reverse ++ bs))
    cases ha : f a with
    | error e => rfl
    | ok b =>
      show List.mapM.loop f l (b :: acc) =
        match List.mapM.loop f l (b :: []) with
        | Except.error e => Except.error e
        | Except.ok bs => Except.ok (acc.reverse ++ bs)
      rw [ih (b :: acc), ih (b :: [])]
      cases hl : l.mapM f with
      | error e => rfl
      | ok bs => simp

theorem mapM_cons_eq {ε α β : Type} (f : α → Except ε β) (a : α) (l : List α) :
    (a :: l).mapM f =
      match f a with
      | .error e => .error e
      | .ok b =>
        match l.mapM f with
        | .error e => .error e
        | .ok bs => .ok (b :: bs) := by
  show (match f a with
    | Except.error e => Except.error e
    | Except.ok b => List.mapM.loop f l (b :: [])) =
    match f a with
    | Except.error e => Except.error e
    | Except.ok b =>
      match l.mapM f with
      | Except.error e => Except.error e
      | Except.ok bs => Except.ok (b :: bs)
  cases ha : f a with
  | error e => rfl
  | ok b =>
    show List.mapM.loop f l (b :: []) =
      match l.mapM f with
      | Except.error e => Except.error e
      | Except.ok bs => Except.ok (b :: bs)
    rw [exceptLoop_eq]
    cases hl : l.mapM f with
    | error e => rfl
    | ok bs => simp

theorem mapM_mem_inv {ε α β : Type} {f : α → Except ε β} :
    ∀ {xs : List α} {ys : List β}, xs.mapM f = .ok ys →
      ∀ y ∈ ys, ∃ x ∈ xs, f x = .ok y := by
  intro xs
  induction xs with
  | nil =>
    intro ys h y hy
    rw [mapM_nil_eq] at h
    cases h
    simp at hy
  | cons a l ih =>
    intro ys h y hy
    rw [mapM_cons_eq] at h
    split at h
    · cases h
    · rename_i b ha
      split at h
      · cases h
      · rename_i bs hl
        cases h
        rcases List.mem_cons.mp hy with he | hm
        · exact ⟨a, by simp, he ▸ ha⟩
        · obtain ⟨x, hx, hfx⟩ := ih hl y hm
          exact ⟨x, by simp [hx], hfx⟩

theorem mapM_ok_of_mem {ε α : Type} {f : α → Except ε α} :
    ∀ {xs : List α}, (∀ x ∈ xs, f x = .ok x) → xs.mapM f = .ok xs := by
  intro xs
  induction xs with
  | nil => intro _; exact mapM_nil_eq f
  | cons a l ih =>
    intro h
    rw [mapM_cons_eq, h a (by simp), ih fun x hx => h x (by simp [hx])]

theorem mapM_congr_mem {ε α β : Type} {f g : α → Except ε β} :
    ∀ {xs : List α}, (∀ x ∈ xs, f x = g x) → xs.mapM f = xs.mapM g := by
  intro xs
  induction xs with
  | nil => intro _; rfl
  | cons a l ih =>
    intro h
    rw [mapM_cons_eq, mapM_cons_eq, h a (by simp),
      ih fun x hx => h x (by simp [hx])]

theorem mapM_mono {ε α β : Type} {f g : α → Except ε β} :
    ∀ {xs : List α} {ys : List β},
      (∀ x y, x ∈ xs → f x = .ok y → g x = .ok y) →
      xs.mapM f = .ok ys → xs.mapM g = .ok ys := by
  intro xs
  induction xs with
  | nil => intro ys _ h; exact h
  | cons a l ih =>
    intro ys hpt h
    rw [mapM_cons_eq] at h
    split at h
    · cases h
    · rename_i b ha
      split at h
      · cases h
      · rename_i bs hl
        cases h
        rw [mapM_cons_eq, hpt a b (by simp) ha,
          ih (fun x y hx => hpt x y (by simp [hx])) hl]

theorem mapM_lift {ε α β γ : Type} {f : α → Except ε β} {g : α → Except ε γ}
    {h : γ → Except ε β} :
    ∀ {xs : List α} {ys : List β},
      (∀ x y, x ∈ xs → f x = .ok y → ∃ w, g x = .ok w ∧ h w = .ok y) →
      xs.mapM f = .ok ys →
      ∃ ws, xs.mapM g = .ok ws ∧ ws.mapM h = .ok ys := by
  intro xs
  induction xs with
  | nil =>
    intro ys _ hmm
    rw [mapM_nil_eq] at hmm
    cases hmm
    exact ⟨[], rfl, rfl⟩
  | cons a l ih =>
    intro ys hpt hmm
    rw [mapM_cons_eq] at hmm
    split at hmm
    · cases hmm
    · rename_i b ha
      split at hmm
      · cases hmm
      · rename_i bs hl
        cases hmm
        obtain ⟨w, hg, hh⟩ := hpt a b (by simp) ha
        obtain ⟨ws, hgs, hhs⟩ := ih (fun x y hx => hpt x y (by simp [hx])) hl
        refine ⟨w :: ws, ?_, ?_⟩
        · rw [mapM_cons_eq, hg, hgs]
        · rw [mapM_cons_eq, hh, hhs]

theorem mapM_of_forall2 {ε α β : Type} {F : α → Except ε β} :
    ∀ {xs : List α} {ys : List β},
      List.Forall₂ (fun x y => F x = .ok y) xs ys → xs.mapM F = .ok ys := by
  intro xs
  induction xs with
  | nil => intro ys h; cases h; rfl
  | cons a l ih =>
    intro ys h
    cases h with
    | cons hab htail =>
      rw [mapM_cons_eq, hab, ih htail]

/-! ### Structural facts about the Python set/dict builders -/

theorem pySetFold_mem :
    ∀ {xs acc : List Value} {v : Value},
      v ∈ xs.foldl (fun acc v => if v ∈ acc then acc else acc ++ [v]) acc →
      v ∈ acc ∨ v ∈ xs := by
  intro xs
  induction xs with
  | nil => intro acc v h; exact Or.inl h
  | cons x xs ih =>
    intro acc v h
    simp only [List.foldl_cons] at h
    by_cases hx : x ∈ acc
    · rw [if_pos hx] at h
      rcases ih h with h1 | h2
      · exact Or.inl h1
      · exact Or.inr (List.mem_cons.mpr (Or.inr h2))
    · rw [if_neg hx] at h
      rcases ih h with h1 | h2
      · rcases List.mem_append.mp h1 with ha | hb
        · exact Or.inl ha
        · simp only [List.mem_singleton] at hb
          exact Or.inr (List.mem_cons.mpr (Or.inl hb))
      · exact Or.inr (List.mem_cons.mpr (Or.inr h2))

theorem pySetOfList_mem {xs : List Value} {v : Value}
    (h : v ∈ pySetOfList xs) : v ∈ xs := by
  rcases pySetFold_mem h with h1 | h2
  · simp at h1
  · exact h2

theorem pySetFold_nodup :
    ∀ {xs acc : List Value}, acc.Nodup →
      (xs.foldl (fun acc v => if v ∈ acc then acc else acc ++ [v]) acc).Nodup := by
  intro xs
  induction xs with
  | nil => intro acc h; exact h
  | cons x xs ih =>
    intro acc h
    simp only [List.foldl_cons]
    by_cases hx : x ∈ acc
    · rw [if_pos hx]
      exact ih h
    · rw [if_neg hx]
      exact ih (by simp [List.nodup_append, h, hx])

theorem pySetOfList_nodup (xs : List Value) : (pySetOfList xs).Nodup :=
  pySetFold_nodup List.nodup_nil

theorem pySetOfList_idem (xs : List Value) :
    pySetOfList (pySetOfList xs) = pySetOfList xs :=
  pySetOfList_eq (pySetOfList_nodup xs)

theorem pyDictInsert_mem {α β : Type} [DecidableEq α] :
    ∀ {ps : List (α × β)} {k : α} {v : β} {p : α × β},
      p ∈ pyDictInsert ps k v → p ∈ ps ∨ p = (k, v) := by
  intro ps
  induction ps with
  | nil =>
    intro k v p h
    simp only [pyDictInsert, List.mem_singleton] at h
    exact Or.inr h
  | cons q ps ih =>
    intro k v p h
    obtain ⟨k', v'⟩ := q
    by_cases hek : k' = k
    · simp only [pyDictInsert, if_pos hek] at h
      rcases List.mem_cons.mp h with he | hm
      · exact Or.inr (by rw [he, hek])
      · exact Or.inl (List.mem_cons.mpr (Or.inr hm))
    · simp only [pyDictInsert, if_neg hek] at h
      rcases List.mem_cons.mp h with he | hm
      · exact Or.inl (he ▸ List.mem_cons_self _ _)
      · rcases ih hm with h1 | h2
        · exact Or.inl (List.mem_cons.mpr (Or.inr h1))
        · exact Or.inr h2

theorem pyDictFold_mem {α β : Type} [DecidableEq α] :
    ∀ {ps acc : List (α × β)} {p : α × β},
      p ∈ ps.foldl (fun acc q => pyDictInsert acc q.1 q.2) acc →
      p ∈ acc ∨ p ∈ ps := by
  intro ps
  induction ps with
  | nil => intro acc p h; exact Or.inl h
  | cons q ps ih =>
    intro acc p h
    simp only [List.foldl_cons] at h
    rcases ih h with h1 | h2
    · rcases pyDictInsert_mem h1 with ha | hb
      · exact Or.inl ha
      · exact Or.inr (by simp [hb])
    · exact Or.inr (List.mem_cons.mpr (Or.inr h2))

theorem pyDictOfList_mem {α β : Type} [DecidableEq α]
    {ps : List (α × β)} {p : α × β} (h : p ∈ pyDictOfList ps) : p ∈ ps := by
  rcases pyDictFold_mem h with h1 | h2
  · simp at h1
  · exact h2

theorem pyDictInsert_keys {α β : Type} [DecidableEq α] :
    ∀ (ps : List (α × β)) (k : α) (v : β),
      (pyDictInsert ps k v).map Prod.fst =
        if k ∈ ps.map Prod.fst then ps.map Prod.fst
        else ps.map Prod.fst ++ [k] := by
  intro ps
  induction ps with
  | nil => intro k v; simp [pyDictInsert]
  | cons q ps ih =>
    intro k v
    obtain ⟨k', v'⟩ := q
    by_cases hek : k' = k
    · subst hek
      simp [pyDictInsert]
    · simp only [pyDictInsert, if_neg hek, List.map_cons, ih]
      by_cases hk : k ∈ ps.map Prod.fst
      · simp [hk, Ne.symm hek]
      · simp [hk, Ne.symm hek]

theorem pyDictFold_keys_nodup {α β : Type} [DecidableEq α] :
    ∀ {ps acc : List (α × β)}, (acc.map Prod.fst).Nodup →
      ((ps.foldl (fun acc q => pyDictInsert acc q.1 q.2) acc).map Prod.fst).Nodup := by
  intro ps
  induction ps with
  | nil => intro acc h; exact h
  | cons q ps ih =>
    intro acc h
    simp only [List.foldl_cons]
    refine ih ?_
    rw [pyDictInsert_keys]
    by_cases hk : q.1 ∈ acc.map Prod.fst
    · rw [if_pos hk]; exact h
    · rw [if_neg hk]
      simp [List.nodup_append, h, hk]

theorem pyDictOfList_keys_nodup {α β : Type} [DecidableEq α]
    (ps : List (α × β)) : ((pyDictOfList ps).map Prod.fst).Nodup :=
  pyDictFold_keys_nodup (by simp)

theorem pyDictOfList_idem {α β : Type} [DecidableEq α] (ps : List (α × β)) :
    pyDictOfList (pyDictOfList ps) = pyDictOfList ps :=
  pyDictOfList_eq (pyDictOfList_keys_nodup ps)

theorem pyDictInsert_rel {α β γ : Type} [DecidableEq α] {R : β → γ → Prop} :
    ∀ {ps : List (α × β)} {qs : List (α × γ)} {k : α} {v : β} {w : γ},
      List.Forall₂ (fun p q => p.1 = q.1 ∧ R p.2 q.2) ps qs → R v w →
      List.Forall₂ (fun p q => p.1 = q.1 ∧ R p.2 q.2)
        (pyDictInsert ps k v) (pyDictInsert qs k w) := by
  intro ps
  induction ps with
  | nil =>
    intro qs k v w hf hr
    cases hf
    exact List.Forall₂.cons ⟨rfl, hr⟩ List.Forall₂.nil
  | cons p ps ih =>
    intro qs k v w hf hr
    cases hf with
    | cons hpq htail =>
      rename_i q qs'
      obtain ⟨k1, v1⟩ := p
      obtain ⟨k2, w1⟩ := q
      obtain ⟨hk, hv⟩ := hpq
      simp only at hk
      subst hk
      by_cases hek : k1 = k
      · simp only [pyDictInsert, if_pos hek]
        exact List.Forall₂.cons ⟨rfl, hr⟩ htail
      · simp only [pyDictInsert, if_neg hek]
        exact List.Forall₂.cons ⟨rfl, hv⟩ (ih htail hr)

theorem pyDictFold_rel {α β γ : Type} [DecidableEq α] {R : β → γ → Prop} :
    ∀ {ps : List (α × β)} {qs : List (α × γ)}
      {accp : List (α × β)} {accq : List (α × γ)},
      List.Forall₂ (fun p q => p.1 = q.1 ∧ R p.2 q.2) accp accq →
      List.Forall₂ (fun p q => p.1 = q.1 ∧ R p.2 q.2) ps qs →
      List.Forall₂ (fun p q => p.1 = q.1 ∧ R p.2 q.2)
        (ps.foldl (fun acc p => pyDictInsert acc p.1 p.2) accp)
        (qs.foldl (fun acc p => pyDictInsert acc p.1 p.2) accq) := by
  intro ps
  induction ps with
  | nil =>
    intro qs accp accq hacc hf
    cases hf
    exact hacc
  | cons p ps ih =>
    intro qs accp accq hacc hf
    cases hf with
    | cons hpq htail =>
      rename_i q qs'
      obtain ⟨hk, hv⟩ := hpq
      simp only [List.foldl_cons]
      refine ih ?_ htail
      rw [← hk]
      exact pyDictInsert_rel hacc hv

theorem pyDictOfList_rel {α β γ : Type} [DecidableEq α] {R : β → γ → Prop}
    {ps : List (α × β)} {qs : List (α × γ)}
    (hf : List.Forall₂ (fun p q => p.1 = q.1 ∧ R p.2 q.2) ps qs) :
    List.Forall₂ (fun p q => p.1 = q.1 ∧ R p.2 q.2)
      (pyDictOfList ps) (pyDictOfList qs) :=
  pyDictFold_rel List.Forall₂.nil hf

theorem forall2_keys_eq {α β γ : Type} {R : β → γ → Prop} :
    ∀ {ps : List (α × β)} {qs : List (α × γ)},
      List.Forall₂ (fun p q => p.1 = q.1 ∧ R p.2 q.2) ps qs →
      ps.map Prod.fst = qs.map Prod.fst := by
  intro ps
  induction ps with
  | nil => intro qs h; cases h; rfl
  | cons p ps ih =>
    intro qs h
    cases h with
    | cons hpq htail =>
      simp only [List.map_cons, hpq.1, ih htail]

theorem exceptBind_ok {ε α β : Type} (a : α) (f : α → Except ε β) :
    (Except.ok a >>= f : Except ε β) = f a := rfl

theorem forall2_attrs_mapM {F : Value → Except Err Value} :
    ∀ {aw av : List (String × Value)},
      List.Forall₂ (fun p q => p.1 = q.1 ∧ F p.2 = .ok q.2) aw av →
      aw.mapM (fun (p : String × Value) =>
        (F p.2).map fun w => (p.1, w)) = .ok av := by
  intro aw
  induction aw with
  | nil => intro av h; cases h; rfl
  | cons p aw ih =>
    intro av h
    cases h with
    | cons hpq htail =>
      rename_i q av'
      obtain ⟨qk, qv⟩ := q
      obtain ⟨hk, hv⟩ := hpq
      simp only at hk hv
      rw [mapM_cons_eq, ih htail]
      simp only [hv, Except.map]
      simp [hk]

theorem forall2_pairs_mapM {F : Value → Except Err Value} :
    ∀ {pw pv : List (Value × Value)},
      List.Forall₂ (fun p q => p.1 = q.1 ∧ F p.2 = .ok q.2) pw pv →
      (∀ p ∈ pw, F p.1 = .ok p.1) →
      pw.mapM (fun (p : Value × Value) => do
        let k ← F p.1
        let w ← F p.2
        pure (k, w)) = .ok pv := by
  intro pw
  induction pw with
  | nil => intro pv h _; cases h; rfl
  | cons p pw ih =>
    intro pv h hkeys
    cases h with
    | cons hpq htail =>
      rename_i q pv'
      obtain ⟨qk, qv⟩ := q
      obtain ⟨hk, hv⟩ := hpq
      simp only at hk hv
      rw [mapM_cons_eq]
      have hkey : F p.1 = .ok p.1 := hkeys p (by simp)
      simp only [hkey, hv, exceptBind_ok,
        ih htail fun x hx => hkeys x (by simp [hx])]
      simp only [hk]
      rfl

/-! ### Fuel monotonicity

`process`, like the Python original, only fails for lack of fuel when the
recursion limit is hit; a successful decode stays successful with more
fuel.  These lemmas let the lazy/eager equivalence thread one fuel budget
through both decoders and the forcing pass. -/

theorem decodeFields_mono {dec dec' : Ty → Doc → Except Err Value} {fmt : Fmt}
    (hpt : ∀ t d v, dec t d = .ok v → dec' t d = .ok v) :
    ∀ {fields : List (String × Ty)} {D : List (Doc × Doc)}
      {attrs : List (String × Value)} {rest : List (Doc × Doc)},
      decodeFieldsWith dec fmt fields D = .ok (attrs, rest) →
      decodeFieldsWith dec' fmt fields D = .ok (attrs, rest) := by
  intro fields
  induction fields with
  | nil => intro D attrs rest h; exact h
  | cons f fields ih =>
    intro D attrs rest h
    obtain ⟨py, fty⟩ := f
    cases hpop : popStrKey (wireName fmt py) D with
    | none =>
      simp only [decodeFieldsWith, hpop] at h
      cases h
    | some pr =>
      obtain ⟨rawVal, D'⟩ := pr
      simp only [decodeFieldsWith, hpop] at h ⊢
      cases hdec : dec fty rawVal with
      | error e => simp only [hdec] at h; cases h
      | ok w =>
        simp only [hdec] at h
        cases hrec : decodeFieldsWith dec fmt fields D' with
        | error e => simp only [hrec] at h; cases h
        | ok pr2 =>
          obtain ⟨attrs2, rest2⟩ := pr2
          simp only [hrec] at h
          cases h
          simp only [hpt _ _ _ hdec, ih hrec]

theorem fieldwise_call_mono {dec dec' : Ty → Doc → Except Err Value}
    {fmt : Fmt} (hpt : ∀ t d v, dec t d = .ok v → dec' t d = .ok v)
    {cls : String} {fields : List (String × Ty)} {doc : Doc} {v : Value}
    (h : fieldwise_call dec fmt cls fields doc = .ok v) :
    fieldwise_call dec' fmt cls fields doc = .ok v := by
  cases doc with
  | obj kvs =>
    simp only [fieldwise_call] at h ⊢
    cases hdf : decodeFieldsWith dec fmt fields kvs with
    | error e => simp only [hdf] at h; cases h
    | ok pr =>
      obtain ⟨attrs, rest⟩ := pr
      simp only [hdf] at h
      simp only [decodeFields_mono hpt hdf]
      exact h
  | null => exact h
  | bool b => exact h
  | int n => exact h
  | float q => exact h
  | str s => exact h
  | b64str bs => exact h
  | bytesNative bs => exact h
  | dtstr stamp tz => exact h
  | dtNative stamp tz => exact h
  | oidstr oid => exact h
  | oidNative oid => exact h
  | pathstr p => exact h
  | arr xs => exact h

theorem fieldwise_handler_mono {dec dec' : Ty → Doc → Except Err Value}
    {fmt : Fmt} {env : Env} {lz : Bool}
    (hpt : ∀ t d v, dec t d = .ok v → dec' t d = .ok v)
    {cls : String} {fields : List (String × Ty)} {doc : Doc} {v : Value}
    (h : fieldwise_handler dec fmt env lz cls fields doc = .ok v) :
    fieldwise_handler dec' fmt env lz cls fields doc = .ok v := by
  simp only [fieldwise_handler] at h ⊢
  by_cases hl : (lz && can_create_lazy_instance env cls) = true
  · rw [if_pos hl] at h ⊢
    exact h
  · rw [if_neg hl] at h ⊢
    exact fieldwise_call_mono hpt h

theorem handle_class_mono {dec dec' : Ty → Doc → Except Err Value}
    {fmt : Fmt} {env : Env} {lz : Bool} {c : String} {doc : Doc} {v : Value}
    (hpt : ∀ t d v, dec t d = .ok v → dec' t d = .ok v)
    (h : handle_class dec fmt env lz c doc = .ok v) :
    handle_class dec' fmt env lz c doc = .ok v := by
  simp only [handle_class] at h ⊢
  cases hld : lookupDef env c with
  | none =>
    simp only [hld] at h
    cases h
  | some td =>
    simp only [hld] at h ⊢
    cases td with
    | flg variants => exact h
    | enm variants => exact h
    | cls fields parent m g =>
      by_cases hac : should_serialize_as_child env c = true
      · simp only [hac, if_true] at h ⊢
        cases doc with
        | obj kvs =>
          cases hpop : popStrKey "type" kvs with
          | none =>
            simp only [hpop] at h
            cases h
          | some pr =>
            obtain ⟨tagDoc, rest⟩ := pr
            simp only [hpop] at h ⊢
            cases tagDoc with
            | str tag =>
              cases hlk : (childByTag env c).lookup tag with
              | none =>
                simp only [hlk] at h
                cases h
              | some child =>
                simp only [hlk] at h ⊢
                cases hcd : lookupDef env child with
                | none =>
                  simp only [hcd] at h
                  cases h
                | some ctd =>
                  simp only [hcd] at h ⊢
                  cases ctd with
                  | cls cfields cparent cm cg =>
                    exact fieldwise_handler_mono hpt h
                  | enm vs => exact h
                  | flg vs => exact h
            | null => exact h
            | bool b => exact h
            | int n => exact h
            | float q => exact h
            | b64str bs => exact h
            | bytesNative bs => exact h
            | dtstr stamp tz => exact h
            | dtNative stamp tz => exact h
            | oidstr oid => exact h
            | oidNative oid => exact h
            | pathstr p => exact h
            | arr xs => exact h
            | obj kvs2 => exact h
        | null => exact h
        | bool b => exact h
        | int n => exact h
        | float q => exact h
        | str s => exact h
        | b64str bs => exact h
        | bytesNative bs => exact h
        | dtstr stamp tz => exact h
        | dtNative stamp tz => exact h
        | oidstr oid => exact h
        | oidNative oid => exact h
        | pathstr p => exact h
        | arr xs => exact h
      · simp only [Bool.not_eq_true] at hac
        simp only [hac, Bool.false_eq_true, if_false] at h ⊢
        exact fieldwise_handler_mono hpt h

theorem process_mono {fmt : Fmt} {env : Env} {lz : Bool} :
    ∀ {n : Nat} {ty : Ty} {d : Doc} {v : Value},
      process fmt env lz n ty d = .ok v →
      process fmt env lz (n + 1) ty d = .ok v := by
  intro n
  induction n with
  | zero =>
    intro ty d v h
    simp only [process] at h
    cases h
  | succ n ih =>
    intro ty d v h
    have ihm : ∀ {ty d v}, process fmt env lz n ty d = .ok v →
        process fmt env lz (n + 1) ty d = .ok v := fun hh => ih hh
    generalize hm : n + 1 = m at ihm ⊢
    simp only [process] at h ⊢
    split at h
    · rename_i hc
      rw [if_pos hc]
      exact h
    · rename_i hc
      rw [if_neg hc]
      cases ty with
      | bool => exact h
      | int => exact h
      | float => exact h
      | str => exact h
      | bytes => exact h
      | datetime => exact h
      | timedelta => exact h
      | objectId => exact h
      | lit options => exact h
      | path => exact h
      | any => exact h
      | optional t =>
        cases d with
        | null => exact h
        | bool b => exact ihm h
        | int k => exact ihm h
        | float q => exact ihm h
        | str s => exact ihm h
        | b64str bs => exact ihm h
        | bytesNative bs => exact ihm h
        | dtstr stamp tz => exact ihm h
        | dtNative stamp tz => exact ihm h
        | oidstr oid => exact ihm h
        | oidNative oid => exact ihm h
        | pathstr p => exact ihm h
        | arr xs => exact ihm h
        | obj kvs => exact ihm h
      | list t =>
        cases d with
        | arr xs =>
          cases hmm : xs.mapM (process fmt env lz n t) with
          | error e => simp only [hmm, Except.map] at h; cases h
          | ok vs =>
            simp only [hmm, Except.map] at h
            simp only [mapM_mono (fun x y _ hy => ihm hy) hmm, Except.map]
            exact h
        | null => exact h
        | bool b => exact h
        | int k => exact h
        | float q => exact h
        | str s => exact h
        | b64str bs => exact h
        | bytesNative bs => exact h
        | dtstr stamp tz => exact h
        | dtNative stamp tz => exact h
        | oidstr oid => exact h
        | oidNative oid => exact h
        | pathstr p => exact h
        | obj kvs => exact h
      | set t =>
        cases d with
        | arr xs =>
          cases hmm : xs.mapM (process fmt env lz n t) with
          | error e => simp only [hmm, Except.map] at h; cases h
          | ok vs =>
            simp only [hmm, Except.map] at h
            simp only [mapM_mono (fun x y _ hy => ihm hy) hmm, Except.map]
            exact h
        | null => exact h
        | bool b => exact h
        | int k => exact h
        | float q => exact h
        | str s => exact h
        | b64str bs => exact h
        | bytesNative bs => exact h
        | dtstr stamp tz => exact h
        | dtNative stamp tz => exact h
        | oidstr oid => exact h
        | oidNative oid => exact h
        | pathstr p => exact h
        | obj kvs => exact h
      | tuple ts =>
        cases d with
        | arr xs =>
          dsimp only at h ⊢
          by_cases hlen : xs.length = ts.length
          · rw [if_pos hlen] at h ⊢
            cases hmm : (xs.zip ts).mapM
                (fun (p : Doc × Ty) => process fmt env lz n p.2 p.1) with
            | error e => simp only [hmm, Except.map] at h; cases h
            | ok vs =>
              simp only [hmm, Except.map] at h
              simp only [mapM_mono (fun x y _ hy => ihm hy) hmm, Except.map]
              exact h
          · rw [if_neg hlen] at h ⊢
            exact h
        | null => exact h
        | bool b => exact h
        | int k => exact h
        | float q => exact h
        | str s => exact h
        | b64str bs => exact h
        | bytesNative bs => exact h
        | dtstr stamp tz => exact h
        | dtNative stamp tz => exact h
        | oidstr oid => exact h
        | oidNative oid => exact h
        | pathstr p => exact h
        | obj kvs => exact h
      | dict kt vt =>
        cases d with
        | obj kvs =>
          cases hmm : kvs.mapM (fun (p : Doc × Doc) => do
              let k ← process fmt env lz n kt p.1
              let w ← process fmt env lz n vt p.2
              pure (k, w)) with
          | error e => simp only [hmm, Except.map] at h; cases h
          | ok ps =>
            simp only [hmm, Except.map] at h
            have hstep : kvs.mapM (fun (p : Doc × Doc) => do
                let k ← process fmt env lz m kt p.1
                let w ← process fmt env lz m vt p.2
                pure (k, w)) = .ok ps := by
              refine mapM_mono (fun x y _ hy => ?_) hmm
              cases hk : process fmt env lz n kt x.1 with
              | error e => simp only [hk] at hy; cases hy
              | ok kk =>
                simp only [hk, exceptBind_ok] at hy
                cases hw : process fmt env lz n vt x.2 with
                | error e => simp only [hw] at hy; cases hy
                | ok ww =>
                  simp only [hw, exceptBind_ok] at hy
                  simp only [ihm hk, ihm hw, exceptBind_ok]
                  exact hy
            simp only [hstep, Except.map]
            exact h
        | null => exact h
        | bool b => exact h
        | int k => exact h
        | float q => exact h
        | str s => exact h
        | b64str bs => exact h
        | bytesNative bs => exact h
        | dtstr stamp tz => exact h
        | dtNative stamp tz => exact h
        | oidstr oid => exact h
        | oidNative oid => exact h
        | pathstr p => exact h
        | arr xs => exact h
      | named c => exact handle_class_mono (fun t d v hy => ihm hy) h

theorem lazy_getattr_mono {fmt : Fmt} {env : Env} {fuel : Nat} {cls : String}
    {remaining : List (Doc × Doc)} {name : String}
    {v : Value} {rem : List (Doc × Doc)}
    (h : lazy_getattr fmt env fuel cls remaining name = .ok (v, rem)) :
    lazy_getattr fmt env (fuel + 1) cls remaining name = .ok (v, rem) := by
  simp only [lazy_getattr] at h ⊢
  cases hld : lookupDef env cls with
  | none => simp only [hld] at h; cases h
  | some td =>
    simp only [hld] at h ⊢
    cases td with
    | enm vs => simp at h
    | flg vs => simp at h
    | cls fields parent m g =>
      cases hlf : fields.lookup name with
      | none => simp only [hlf] at h; cases h
      | some fty =>
        simp only [hlf] at h ⊢
        cases hpop : popStrKey (wireName fmt name) remaining with
        | none => simp only [hpop] at h; cases h
        | some pr =>
          obtain ⟨rawVal, remaining'⟩ := pr
          simp only [hpop] at h ⊢
          cases hdec : process fmt env true fuel fty rawVal with
          | error e => simp only [hdec] at h; cases h
          | ok w =>
            simp only [hdec] at h
            simp only [process_mono hdec]
            exact h

theorem readFields_mono {fmt : Fmt} {env : Env} {fuel : Nat} {cls : String} :
    ∀ {names : List String} {remaining : List (Doc × Doc)}
      {attrs : List (String × Value)} {rem : List (Doc × Doc)},
      readFields fmt env fuel cls names remaining = .ok (attrs, rem) →
      readFields fmt env (fuel + 1) cls names remaining = .ok (attrs, rem) := by
  intro names
  induction names with
  | nil => intro remaining attrs rem h; exact h
  | cons name names ih =>
    intro remaining attrs rem h
    simp only [readFields] at h ⊢
    cases hga : lazy_getattr fmt env fuel cls remaining name with
    | error e => simp only [hga] at h; cases h
    | ok pr =>
      obtain ⟨w, remaining'⟩ := pr
      simp only [hga] at h
      simp only [lazy_getattr_mono hga]
      cases hrec : readFields fmt env fuel cls names remaining' with
      | error e => simp only [hrec] at h; cases h
      | ok pr2 =>
        simp only [hrec] at h
        simp only [ih hrec]
        exact h

theorem forceValue_mono {fmt : Fmt} {env : Env} :
    ∀ {n : Nat} {w v : Value}, forceValue fmt env n w = .ok v →
      forceValue fmt env (n + 1) w = .ok v := by
  intro n
  induction n with
  | zero =>
    intro w v h
    simp only [forceValue] at h
    cases h
  | succ n ih =>
    intro w v h
    have ihm : ∀ {w v : Value}, forceValue fmt env n w = .ok v →
        forceValue fmt env (n + 1) w = .ok v := fun hh => ih hh
    generalize hm : n + 1 = m at ihm ⊢
    cases w with
    | vLazy c kvs =>
      simp only [forceValue] at h ⊢
      cases hld : lookupDef env c with
      | none => simp only [hld] at h; cases h
      | some td =>
        simp only [hld] at h ⊢
        cases td with
        | enm vs => simp at h
        | flg vs => simp at h
        | cls fields parent pm pg =>
          cases hrf : readFields fmt env n c (fields.map Prod.fst) kvs with
          | error e => simp only [hrf] at h; cases h
          | ok pr =>
            obtain ⟨attrs, rest⟩ := pr
            simp only [hrf] at h
            have hrfm : readFields fmt env m c (fields.map Prod.fst) kvs =
                .ok (attrs, rest) := hm ▸ readFields_mono hrf
            simp only [hrfm]
            cases hmm : attrs.mapM (fun (p : String × Value) =>
                (forceValue fmt env n p.2).map (fun w => (p.1, w))) with
            | error e => simp only [hmm] at h; cases h
            | ok attrs2 =>
              simp only [hmm] at h
              have hstep : attrs.mapM (fun (p : String × Value) =>
                  (forceValue fmt env m p.2).map (fun w => (p.1, w))) =
                  .ok attrs2 := by
                refine mapM_mono (fun x y _ hy => ?_) hmm
                cases hf : forceValue fmt env n x.2 with
                | error e => simp only [hf] at hy; cases hy
                | ok w2 =>
                  simp only [hf] at hy
                  simp only [ihm hf]
                  exact hy
              simp only [hstep]
              exact h
    | vRecord c attrs =>
      simp only [forceValue] at h ⊢
      cases hmm : attrs.mapM (fun (p : String × Value) =>
          (forceValue fmt env n p.2).map (fun w => (p.1, w))) with
      | error e => simp only [hmm] at h; cases h
      | ok attrs2 =>
        simp only [hmm] at h
        have hstep : attrs.mapM (fun (p : String × Value) =>
            (forceValue fmt env m p.2).map (fun w => (p.1, w))) =
            .ok attrs2 := by
          refine mapM_mono (fun x y _ hy => ?_) hmm
          cases hf : forceValue fmt env n x.2 with
          | error e => simp only [hf] at hy; cases hy
          | ok w2 =>
            simp only [hf] at hy
            simp only [ihm hf]
            exact hy
        simp only [hstep]
        exact h
    | vList xs =>
      simp only [forceValue] at h ⊢
      cases hmm : xs.mapM (forceValue fmt env n) with
      | error e => simp only [hmm] at h; cases h
      | ok ws =>
        simp only [hmm] at h
        simp only [mapM_mono (fun x y _ hy => ihm hy) hmm]
        exact h
    | vTuple xs =>
      simp only [forceValue] at h ⊢
      cases hmm : xs.mapM (forceValue fmt env n) with
      | error e => simp only [hmm] at h; cases h
      | ok ws =>
        simp only [hmm] at h
        simp only [mapM_mono (fun x y _ hy => ihm hy) hmm]
        exact h
    | vSet xs =>
      simp only [forceValue] at h ⊢
      cases hmm : xs.mapM (forceValue fmt env n) with
      | error e => simp only [hmm] at h; cases h
      | ok ws =>
        simp only [hmm] at h
        simp only [mapM_mono (fun x y _ hy => ihm hy) hmm]
        exact h
    | vDict kvs =>
      simp only [forceValue] at h ⊢
      cases hmm : kvs.mapM (fun (p : Value × Value) => do
          let k ← forceValue fmt env n p.1
          let w ← forceValue fmt env n p.2
          pure (k, w)) with
      | error e => simp only [hmm] at h; cases h
      | ok ps =>
        simp only [hmm] at h
        have hstep : kvs.mapM (fun (p : Value × Value) => do
            let k ← forceValue fmt env m p.1
            let w ← forceValue fmt env m p.2
            pure (k, w)) = .ok ps := by
          refine mapM_mono (fun x y _ hy => ?_) hmm
          cases hk : forceValue fmt env n x.1 with
          | error e => simp only [hk] at hy; cases hy
          | ok kk =>
            simp only [hk, exceptBind_ok] at hy
            cases hw : forceValue fmt env n x.2 with
            | error e => simp only [hw] at hy; cases hy
            | ok ww =>
              simp only [hw, exceptBind_ok] at hy
              simp only [ihm hk, ihm hw, exceptBind_ok]
              exact hy
        simp only [hstep]
        exact h
    | vBool b => exact hm ▸ h
    | vInt k => exact hm ▸ h
    | vFloat q => exact hm ▸ h
    | vStr str => exact hm ▸ h
    | vBytes bs => exact hm ▸ h
    | vDatetime stamp tz => exact hm ▸ h
    | vTimedelta q => exact hm ▸ h
    | vNone => exact hm ▸ h
    | vObjectId oid => exact hm ▸ h
    | vPath p => exact hm ▸ h
    | vEnum c nm => exact hm ▸ h
    | vFlag c bits => exact hm ▸ h

/-! ### Rigid types: the lazy flag is irrelevant and forcing is the identity -/

theorem passthrough_force {fmt : Fmt} {env : Env} {ty : Ty} {d : Doc}
    {v : Value} {n : Nat} (h : passthroughDecode ty d = .ok v) :
    forceValue fmt env (n + 1) v = .ok v := by
  cases ty <;> cases d <;> simp only [passthroughDecode] at h <;> cases h <;> rfl

theorem rigid_lazy {fmt : Fmt} {env : Env} {lz : Bool} :
    ∀ {n : Nat} {ty : Ty}, rigidTy env ty = true →
      ∀ (d : Doc), process fmt env lz n ty d = process fmt env false n ty d := by
  intro n
  induction n with
  | zero => intro ty _ d; rfl
  | succ n ih =>
    intro ty hrig d
    cases ty with
    | bool => rfl
    | int => rfl
    | float => rfl
    | str => rfl
    | bytes => rfl
    | datetime => rfl
    | timedelta => rfl
    | objectId => rfl
    | lit options => rfl
    | path => rfl
    | any => simp [rigidTy] at hrig
    | optional t =>
      simp only [rigidTy] at hrig
      simp only [process]
      have he : (match d with
          | Doc.null => Except.ok Value.vNone
          | d => process fmt env lz n t d) =
          (match d with
          | Doc.null => Except.ok Value.vNone
          | d => process fmt env false n t d) := by
        cases d
        case null => rfl
        all_goals exact ih hrig _
      rw [he]
    | list t =>
      simp only [rigidTy] at hrig
      simp only [process]
      have hf : process fmt env lz n t = process fmt env false n t :=
        funext (ih hrig)
      rw [hf]
    | set t =>
      simp only [rigidTy] at hrig
      simp only [process]
      have hf : process fmt env lz n t = process fmt env false n t :=
        funext (ih hrig)
      rw [hf]
    | tuple ts =>
      simp only [rigidTy] at hrig
      simp only [process]
      cases d
      case arr xs =>
        dsimp only
        have hcg : (xs.zip ts).mapM
            (fun (p : Doc × Ty) => process fmt env lz n p.2 p.1) =
            (xs.zip ts).mapM
            (fun (p : Doc × Ty) => process fmt env false n p.2 p.1) :=
          mapM_congr_mem (fun p hp =>
            ih (rigidTyList_mem hrig (List.of_mem_zip hp).2) p.1)
        rw [hcg]
      all_goals rfl
    | dict kt vt =>
      simp only [rigidTy, Bool.and_eq_true] at hrig
      simp only [process]
      cases d
      case obj kvs =>
        dsimp only
        have hcg : kvs.mapM (fun (p : Doc × Doc) => do
            let k ← process fmt env lz n kt p.1
            let w ← process fmt env lz n vt p.2
            pure (k, w)) = kvs.mapM (fun (p : Doc × Doc) => do
            let k ← process fmt env false n kt p.1
            let w ← process fmt env false n vt p.2
            pure (k, w)) :=
          mapM_congr_mem (fun p hp => by
            rw [ih hrig.1 p.1, ih hrig.2 p.2])
        rw [hcg]
      all_goals rfl
    | named c =>
      simp only [process]
      have hhc : handle_class (process fmt env lz n) fmt env lz c d =
          handle_class (process fmt env false n) fmt env false c d := by
        simp only [handle_class]
        cases hld : lookupDef env c with
        | none => rfl
        | some td =>
          cases td with
          | enm vs => rfl
          | flg vs => rfl
          | cls fields parent pm pg =>
            exfalso
            simp [rigidTy, hld] at hrig
      rw [hhc]

theorem rigid_force {fmt : Fmt} {env : Env} {lz : Bool} :
    ∀ {n : Nat} {ty : Ty} {d : Doc} {v : Value}, rigidTy env ty = true →
      process fmt env lz n ty d = .ok v → forceValue fmt env n v = .ok v := by
  intro n
  induction n with
  | zero =>
    intro ty d v _ h
    simp only [process] at h
    cases h
  | succ n ih =>
    intro ty d v hrig h
    simp only [process] at h
    split at h
    · exact passthrough_force h
    · cases ty with
      | bool => exact passthrough_force h
      | int => exact passthrough_force h
      | float => exact passthrough_force h
      | str => exact passthrough_force h
      | bytes =>
        dsimp only at h
        cases d <;> first | (cases h; rfl) | cases h
      | datetime =>
        dsimp only at h
        cases fmt with
        | json =>
          cases d <;> try (first | (cases h; rfl) | cases h)
          case dtstr stamp tz =>
            cases tz <;> first | (cases h; rfl) | cases h
        | bson =>
          cases d <;> try (first | (cases h; rfl) | cases h)
          case dtNative stamp tz =>
            cases tz <;> first | (cases h; rfl) | cases h
      | timedelta =>
        dsimp only at h
        cases d <;> first | (cases h; rfl) | cases h
      | objectId =>
        dsimp only at h
        cases d <;> first | (cases h; rfl) | cases h
      | lit options =>
        cases d <;> try (first | (cases h; rfl) | cases h)
        case str s =>
          have h2 : (if s ∈ options then Except.ok (Value.vStr s)
              else Except.error (Err.serde (SerdeMsg.expectedGot "literal"))) =
              Except.ok v := h
          split at h2
          · cases h2; rfl
          · cases h2
      | path =>
        dsimp only at h
        cases d <;> first | (cases h; rfl) | cases h
      | any => simp [rigidTy] at hrig
      | optional t =>
        simp only [rigidTy] at hrig
        dsimp only at h
        split at h
        · cases h; rfl
        · exact forceValue_mono (ih hrig h)
      | list t =>
        simp only [rigidTy] at hrig
        dsimp only at h
        split at h
        · rename_i xs
          cases hmm : xs.mapM (process fmt env lz n t) with
          | error e => simp only [hmm, Except.map] at h; cases h
          | ok vs =>
            simp only [hmm, Except.map] at h
            cases h
            have hforce : vs.mapM (forceValue fmt env n) = .ok vs :=
              mapM_ok_of_mem (fun x hx => by
                obtain ⟨d2, hd2, hp⟩ := mapM_mem_inv hmm x hx
                exact ih hrig hp)
            simp only [forceValue, hforce]
            rfl
        · cases h
      | set t =>
        simp only [rigidTy] at hrig
        dsimp only at h
        split at h
        · rename_i xs
          cases hmm : xs.mapM (process fmt env lz n t) with
          | error e => simp only [hmm, Except.map] at h; cases h
          | ok vs =>
            simp only [hmm, Except.map] at h
            cases h
            have hforce : (pySetOfList vs).mapM (forceValue fmt env n) =
                .ok (pySetOfList vs) :=
              mapM_ok_of_mem (fun x hx => by
                obtain ⟨d2, hd2, hp⟩ := mapM_mem_inv hmm x (pySetOfList_mem hx)
                exact ih hrig hp)
            simp only [forceValue, hforce, Except.map, pySetOfList_idem]
        · cases h
      | tuple ts =>
        simp only [rigidTy] at hrig
        dsimp only at h
        split at h
        · rename_i xs
          split at h
          · cases hmm : (xs.zip ts).mapM
                (fun (p : Doc × Ty) => process fmt env lz n p.2 p.1) with
            | error e => simp only [hmm, Except.map] at h; cases h
            | ok vs =>
              simp only [hmm, Except.map] at h
              cases h
              have hforce : vs.mapM (forceValue fmt env n) = .ok vs :=
                mapM_ok_of_mem (fun x hx => by
                  obtain ⟨p2, hp2, hp⟩ := mapM_mem_inv hmm x hx
                  obtain ⟨pd, pt⟩ := p2
                  exact ih (rigidTyList_mem hrig (List.of_mem_zip hp2).2) hp)
              simp only [forceValue, hforce]
              rfl
          · cases h
        · cases h
      | dict kt vt =>
        simp only [rigidTy, Bool.and_eq_true] at hrig
        dsimp only at h
        split at h
        · rename_i kvs
          cases hmm : kvs.mapM (fun (p : Doc × Doc) => do
              let k ← process fmt env lz n kt p.1
              let w ← process fmt env lz n vt p.2
              pure (k, w)) with
          | error e => simp only [hmm, Except.map] at h; cases h
          | ok ps =>
            simp only [hmm, Except.map] at h
            cases h
            have hforce : (pyDictOfList ps).mapM (fun (p : Value × Value) => do
                let k ← forceValue fmt env n p.1
                let w ← forceValue fmt env n p.2
                pure (k, w)) = .ok (pyDictOfList ps) := by
              refine mapM_ok_of_mem (fun q hq => ?_)
              obtain ⟨p2, hp2, hp⟩ := mapM_mem_inv hmm q (pyDictOfList_mem hq)
              cases hk : process fmt env lz n kt p2.1 with
              | error e => simp only [hk] at hp; cases hp
              | ok kk =>
                simp only [hk, exceptBind_ok] at hp
                cases hw : process fmt env lz n vt p2.2 with
                | error e => simp only [hw] at hp; cases hp
                | ok ww =>
                  simp only [hw, exceptBind_ok] at hp
                  cases hp
                  simp only [ih hrig.1 hk, ih hrig.2 hw, exceptBind_ok]
                  rfl
            simp only [forceValue, hforce, Except.map, pyDictOfList_idem]
        · cases h
      | named c =>
        simp only [handle_class] at h
        cases hld : lookupDef env c with
        | none => simp only [hld] at h; cases h
        | some td =>
          cases td with
          | cls fields parent pm pg =>
            exfalso
            simp [rigidTy, hld] at hrig
          | enm variants =>
            simp only [hld] at h
            cases d <;> try (first | (cases h; rfl) | cases h)
            case str s =>
              have h2 : (if camel_case_to_all_upper s ∈ variants then
                  Except.ok (Value.vEnum c (camel_case_to_all_upper s))
                  else Except.error (Err.serde (SerdeMsg.invalidEnumValue s))) =
                  Except.ok v := h
              split at h2
              · cases h2; rfl
              · cases h2
          | flg variants =>
            simp only [hld] at h
            cases d <;> try (first | (cases h; rfl) | cases h)
            case arr items =>
              have h2 : Except.map
                  (fun names => Value.vFlag c (variants.filter (· ∈ names)))
                  (decodeFlagItems variants items) = Except.ok v := h
              cases hdf : decodeFlagItems variants items with
              | error e => simp only [hdf, Except.map] at h2; cases h2
              | ok names =>
                simp only [hdf, Except.map] at h2
                cases h2
                rfl

end Uniserde
